import Mathlib

/-!
# Verification of the SantecSLM calibration pipeline

Shallow embedding of the grayscale-to-phase calibration code
(`calib_tools.py`) and the SLM driver status check (`interface.py`).

Numpy arrays are modelled as Lean lists; float arithmetic is modelled over an
arbitrary linear ordered field (instantiated at `ℚ` for executable checks and
at `ℝ` for the transcendental phase computation, which uses `Real.arccos` and
`Real.sqrt`).  Fallible code (`raise ValueError` / `RuntimeError`) is modelled
with `Except String`.
-/

namespace SantecSLM

variable {K : Type} [LinearOrderedField K]

/-! ## numpy primitives -/

/-- Model of `np.sign`: `-1` for negatives, `1` for positives, `0` for zero. -/
def npSign (a : K) : K := if a < 0 then -1 else if 0 < a then 1 else 0

/-- Model of `np.max` of a 1-D array.  numpy raises on an empty array; the model
returns the junk value `0` there. -/
def npMax : List K → K
  | [] => 0
  | a :: t => t.foldl max a

/-- Model of `np.min` of a 1-D array (junk value `0` on the empty array). -/
def npMin : List K → K
  | [] => 0
  | a :: t => t.foldl min a

/-- Model of `np.diff(l, append=l[-1])`: forward differences with the last element
repeated, so the result has the same length as `l` and ends in `0`. -/
def diffAppendLast : List K → List K
  | [] => []
  | [_] => [0]
  | a :: b :: t => (b - a) :: diffAppendLast (b :: t)

/-- Index of the first `true` in a boolean list (`length` when there is
none); helper for `np.argmax` on boolean arrays. -/
def findIdxTrue : List Bool → ℕ
  | [] => 0
  | b :: t => if b then 0 else findIdxTrue t + 1

/-- Model of `np.argmax` on a boolean array: index of the first `True`; when every
entry is `False` all entries are equal and numpy returns `0`. -/
def npArgmaxBool (l : List Bool) : ℕ :=
  if findIdxTrue l = l.length then 0 else findIdxTrue l

/-- Model of `np.argmin`: index of the first occurrence of the minimum. -/
def npArgmin (l : List K) : ℕ :=
  findIdxTrue (l.map fun v => decide (v = npMin l))

/-- Result of deleting the Python slice `l[s:t]` from `l` (the effect of
`mask[s:t] = 0` followed by boolean-mask indexing in the source): negative
bounds wrap around by the length of the list, bounds are clamped to
`[0, len]`, and when the normalized start is not below the normalized stop
the slice is empty, so nothing is removed. -/
def pySliceDelete {α : Type} (l : List α) (s t : ℤ) : List α :=
  let n : ℤ := l.length
  let s' : ℤ := if s < 0 then max (n + s) 0 else min s n
  let t' : ℤ := if t < 0 then max (n + t) 0 else min t n
  if s' < t' then l.take s'.toNat ++ l.drop t'.toNat else l

/-! ## `linear_interpolation` (calib_tools.py lines 292-314) -/

/-- Index of the interpolation knot used for target `t`:
`x.size - np.argmax(diff[::-1, :] <= 0, axis=0) - 1` where
`diff[i] = x[i] - t`; i.e. scan `x` from the top for the first entry `≤ t`. -/
def interpCoefIdx (x : List K) (t : K) : ℕ :=
  x.length - npArgmaxBool (x.reverse.map fun v => decide (v - t ≤ 0)) - 1

/-- Value interpolated at one target `t` (lines 308-313 of the source):
`x` and `y` are extended by a repeated last knot — `np.append(x, x[-1] + 1)`
to avoid division by zero and `np.append(y, y[-1])` — and the result is
`y[i] + (t - x[i]) * (y[i+1] - y[i]) / (x[i+1] - x[i])` at
`i = interpCoefIdx x t` over the extended arrays. -/
def interpAt (x y : List K) (t : K) : K :=
  (y ++ [y.getLastD 0]).getD (interpCoefIdx x t) 0 +
    (t - (x ++ [x.getLastD 0 + 1]).getD (interpCoefIdx x t) 0) *
      (((y ++ [y.getLastD 0]).getD (interpCoefIdx x t + 1) 0 -
          (y ++ [y.getLastD 0]).getD (interpCoefIdx x t) 0) /
        ((x ++ [x.getLastD 0 + 1]).getD (interpCoefIdx x t + 1) 0 -
          (x ++ [x.getLastD 0 + 1]).getD (interpCoefIdx x t) 0))

/-- Model of `linear_interpolation(target, x, y)` from `calib_tools.py`.
Raises (models `ValueError`) when a target lies outside `[min x, max x]`;
the guards for empty arrays model the `ValueError`/`IndexError` that
`np.min`/`np.max`/`y[-1]` raise in Python, in source order. -/
def linear_interpolation (target x y : List K) : Except String (List K) :=
  if target.isEmpty ∨ x.isEmpty then
    .error "zero-size array to reduction operation"
  else if npMin target < npMin x ∨ npMax x < npMax target then
    .error "Linear interpolation failed: Some target values not in range of x"
  else if y.isEmpty then
    .error "index -1 is out of bounds"
  else
    .ok (target.map (interpAt x y))

/-! ## `map_grayscale_to_phase` (calib_tools.py lines 248-289)

The function is split into named stages so that claims can speak about the
intermediate arrays.  The stages up to the minimum-window masking involve
only ordered-field arithmetic and are kept polymorphic (executable at `ℚ`);
the phase computation needs `Real.arccos`/`Real.sqrt` and lives at `ℝ`. -/

/-- Line 263-264: `if np.max(y) > 1: y /= np.max(y)`. -/
def normalizeIntensities (y : List K) : List K :=
  if 1 < npMax y then y.map (· / npMax y) else y

/-- Line 266: `slopes = np.sign(np.diff(y, append=y[-1]))`. -/
def slopesOf (y : List K) : List K := (diffAppendLast y).map npSign

/-- Line 267: `dist_from_1st = np.sign(y - y[0])`. -/
def distFrom1st (y : List K) : List K := y.map fun v => npSign (v - y.headD 0)

/-- Line 268:
`period_delim = np.sign(np.diff(dist_from_1st, append=dist_from_1st[-1])) == slopes[0]`. -/
def periodDelim (y : List K) : List Bool :=
  (diffAppendLast (distFrom1st y)).map fun d =>
    decide (npSign d = (slopesOf y).headD 0)

/-- Line 271: `period_end_idx = np.argmax(period_delim[1:])+1`. -/
def periodEndIdx (y : List K) : ℕ :=
  npArgmaxBool ((periodDelim y).drop 1) + 1

/-- Lines 270-274: truncate `x`, `y` and `slopes` to `[0:period_end_idx)`
when `period_delim.size > 1`. -/
def truncateSweep (x y s : List K) : List K × List K × List K :=
  if 1 < (periodDelim y).length then
    (x.take (periodEndIdx y), y.take (periodEndIdx y), s.take (periodEndIdx y))
  else (x, y, s)

/-- Lines 276-278: build `ignore_mask`, zero the slice
`[argmin(y)-k : argmin(y)+k+1]` and keep the unmasked entries. -/
def maskMinimum (k : ℕ) (x y s : List K) : List K × List K × List K :=
  (pySliceDelete x ((npArgmin y : ℤ) - k) ((npArgmin y : ℤ) + k + 1),
   pySliceDelete y ((npArgmin y : ℤ) - k) ((npArgmin y : ℤ) + k + 1),
   pySliceDelete s ((npArgmin y : ℤ) - k) ((npArgmin y : ℤ) + k + 1))

/-- The grayscale/intensity/slope triple after truncation and masking. -/
def extractStages (k : ℕ) (grayscales intensities : List K) :
    List K × List K × List K :=
  maskMinimum k
    (truncateSweep grayscales (normalizeIntensities intensities)
      (slopesOf (normalizeIntensities intensities))).1
    (truncateSweep grayscales (normalizeIntensities intensities)
      (slopesOf (normalizeIntensities intensities))).2.1
    (truncateSweep grayscales (normalizeIntensities intensities)
      (slopesOf (normalizeIntensities intensities))).2.2

/-- Lines 280-281: `phases = np.acos(np.sqrt(y))`;
`phases[slopes > 0] = np.pi - phases[slopes > 0]`. -/
noncomputable def branchPhases (y s : List ℝ) : List ℝ :=
  List.zipWith
    (fun v sl =>
      if 0 < sl then Real.pi - Real.arccos (Real.sqrt v)
      else Real.arccos (Real.sqrt v))
    y s

/-- Line 282: `zero_idx = np.argmin(np.abs(phases - 0))`. -/
noncomputable def zeroIdx (ph : List ℝ) : ℕ := npArgmin (ph.map fun v => |v - 0|)

/-- Line 283: `phases[0:zero_idx] -= np.pi`. -/
noncomputable def unwrapPhases (ph : List ℝ) : List ℝ :=
  (ph.take (zeroIdx ph)).map (fun v => v - Real.pi) ++ ph.drop (zeroIdx ph)

/-- Lines 283-285: `phases[0:zero_idx] -= np.pi`; `phases -= phases[0]`;
`phases *= 2`. -/
noncomputable def stitchPhases (ph : List ℝ) : List ℝ :=
  ((unwrapPhases ph).map fun v => v - (unwrapPhases ph).headD 0).map
    fun v => v * 2

/-- Model of `map_grayscale_to_phase(grayscales, intensities, ignored_samples)`:
returns the (grayscale, phase) calibration curve.  Lines 286-289 append the
synthetic point `(1023, 2*pi)` when the last remaining grayscale is not
`1023`. -/
noncomputable def map_grayscale_to_phase (grayscales intensities : List ℝ)
    (ignored_samples : ℕ := 1) : List ℝ × List ℝ :=
  if (extractStages ignored_samples grayscales intensities).1.getLastD 0 ≠ 1023 then
    ((extractStages ignored_samples grayscales intensities).1 ++ [1023],
     stitchPhases (branchPhases
       (extractStages ignored_samples grayscales intensities).2.1
       (extractStages ignored_samples grayscales intensities).2.2) ++ [2 * Real.pi])
  else
    ((extractStages ignored_samples grayscales intensities).1,
     stitchPhases (branchPhases
       (extractStages ignored_samples grayscales intensities).2.1
       (extractStages ignored_samples grayscales intensities).2.2))

/-! ## `check_error` and the status-code table (interface.py lines 33-149) -/

def SLM_OK : ℤ := 0
def SLM_NG : ℤ := 1
def SLM_BS : ℤ := 2
def SLM_ER : ℤ := 3

/-- The `ERROR_MSGs` dictionary from `interface.py` (keys are the `SLM_STATUS`
and FTDI status codes, values the human-readable descriptions). -/
def ERROR_MSGs : List (ℤ × String) :=
  [(0, "OK"), (1, "NG"), (2, "SLM is busy"), (3, "parameter error"),
   (-1, "display no not found"), (-2, "display not opened"),
   (-3, "window open error"), (-4, "data format error"),
   (-101, "file read error (over 1023?)"), (-200, "USB not opened"),
   (-1000, "other error"),
   (-10001, "USB driver error (invalid handle)"),
   (-10002, "device not found (check power/connection; if connected, reset power)"),
   (-10003, "device already opened"),
   (-10004, "USB driver error (I/O error)"),
   (-10005, "USB driver error (insufficient resources)"),
   (-10006, "USB driver error (invalid parameter)"),
   (-10007, "USB driver error (invalid baud rate)"),
   (-10008, "USB driver error (not opened for erase)"),
   (-10009, "USB driver error (not opened for write)"),
   (-10010, "USB driver error (failed to write device)"),
   (-10011, "USB driver error (EEPROM read failed)"),
   (-10012, "USB driver error (EEPROM write failed)"),
   (-10013, "USB driver error (EEPROM erase failed)"),
   (-10014, "USB driver error (EEPROM not present)"),
   (-10015, "USB driver error (EEPROM not programmed)"),
   (-10016, "USB driver error (invalid args)"),
   (-10017, "USB driver error (not supported)"),
   (-10018, "USB driver error (no more items)"),
   (-10019, "USB driver error (timeout)"),
   (-10020, "USB driver error (operation aborted)"),
   (-10021, "USB driver error (reserved pipe)"),
   (-10022, "USB driver error (invalid control request direction)"),
   (-10023, "USB driver error (invalid control request type)"),
   (-10024, "USB driver error (I/O pending)"),
   (-10025, "USB driver error (I/O incomplete)"),
   (-10026, "USB driver error (handle EOF)"),
   (-10027, "USB driver error (busy)"),
   (-10028, "USB driver error (no system resources)"),
   (-10029, "USB driver error (device list not ready)"),
   (-10030, "USB driver error (device not connected)"),
   (-10031, "USB driver error (incorrect device path)"),
   (-10032, "USB driver error (other error)")]

/-- Model of `check_error(return_code, optional_header_msg)` from `interface.py`:
returns normally only for `SLM_OK`, otherwise raises a `RuntimeError` whose
message includes the table description when the code is a key of
`ERROR_MSGs`, and a generic unknown-code message otherwise. -/
def check_error (return_code : ℤ) (optional_header_msg : String := "") :
    Except String Unit :=
  if return_code = SLM_OK then .ok ()
  else
    match ERROR_MSGs.lookup return_code with
    | some desc =>
        .error (optional_header_msg ++ " SLM returned error code " ++
          toString return_code ++ ". Description: " ++ desc)
    | none => .error (optional_header_msg ++ " SLM returned unknown error code.")

/-! ## `UniformAndBinaryCalib.measure` target-piece selection
(calib_tools.py lines 152-153 and 198) -/

def MODE_EFF : String := "BinaryEfficiency"
def MODE_GRAY : String := "GrayscaleCalibration"

/-- The two pattern pieces the `Measure` action can command. -/
inductive TargetPiece
  | grating
  | uniform
  deriving DecidableEq

/-- Python truthiness of a string: nonempty strings are truthy. -/
def pyTruthyString (s : String) : Bool := s ≠ ""

/-- Line 198: `target_piece = grating if self.MODE_EFF else uniform`.
The condition is the class constant `MODE_EFF` itself (not a comparison with
the current mode dropdown value `mode`), so the choice is made by the
truthiness of the constant string. -/
def measureTargetPiece (_mode : String) : TargetPiece :=
  if pyTruthyString MODE_EFF then TargetPiece.grating else TargetPiece.uniform

/-! ## Caller-visible array state of `map_grayscale_to_phase` (frame effect)

`x, y = grayscales, intensities` makes the local names alias the caller's
arrays.  Line 264 `y /= np.max(y)` is an *in-place* division writing through
to the caller's intensities buffer; every later statement touching `x` or
`y` (slicing at lines 272-273, boolean-mask indexing at line 278,
`np.append` at line 288) rebinds the local name to a freshly allocated
array, and the `phases` in-place updates act on the fresh array created by
`np.acos` at line 280.  So after the call the caller's intensities array
holds the (possibly normalized) values and the caller's grayscales array is
untouched. -/

structure CallerArrays where
  grayscales : List ℝ
  intensities : List ℝ

/-- Result of `map_grayscale_to_phase` together with the final contents of the
caller's two argument arrays. -/
noncomputable def map_grayscale_to_phase_withStore (st : CallerArrays)
    (ignored_samples : ℕ) : (List ℝ × List ℝ) × CallerArrays :=
  let y := normalizeIntensities st.intensities
  -- the in-place division wrote `y`'s contents into the caller's buffer
  let st' : CallerArrays := { grayscales := st.grayscales, intensities := y }
  (map_grayscale_to_phase st.grayscales st.intensities ignored_samples, st')

/-! ## Valid single-period sweeps

Formalization of the spec's "valid single-period sweep" for
`map_grayscale_to_phase`: intensities follow the cos² shape — strictly
rising from the first sample to the maximum at index `m`, strictly falling
to the single global minimum at index `p`, then strictly rising again while
staying below the first sample until the sweep crosses back up to the
first-sample level at index `c` (the end of one full period).  All
intensities lie in `[0, 1]` (the sweep is normalized), and the sample
margins required by the code are met: the peak is not the first sample, the
discard window of `ignored_samples` around the minimum stays strictly
between the peak and the ends, and at least one post-minimum sample exists
before the crossing. -/
structure ValidSweep (x y : List ℝ) (k m p c : ℕ) : Prop where
  hlen : x.length = y.length
  hm : 1 ≤ m
  hmp : m + k < p
  hpc : p + 2 ≤ c
  hcn : c < y.length
  h01 : ∀ i, i < y.length → 0 ≤ y.getD i 0 ∧ y.getD i 0 ≤ 1
  hrise : ∀ i, i < m → y.getD i 0 < y.getD (i + 1) 0
  hfall : ∀ i, m ≤ i → i < p → y.getD (i + 1) 0 < y.getD i 0
  hrise2 : ∀ i, p ≤ i → i + 1 < c → y.getD i 0 < y.getD (i + 1) 0
  hbelow : ∀ i, p ≤ i → i < c → y.getD i 0 < y.getD 0 0
  hcross : y.getD 0 0 ≤ y.getD c 0

/-- Closed form of the phase curve that `map_grayscale_to_phase` produces on
a valid single-period sweep (before the optional appended point): doubled,
re-based inverse-cos² phases of the rising branch, the falling branch, and
the post-minimum samples that survive the discard window. -/
noncomputable def expectedPhases (y : List ℝ) (k m p c : ℕ) : List ℝ :=
  (List.range' 0 m).map
      (fun i => (Real.arccos (Real.sqrt (y.getD 0 0)) -
        Real.arccos (Real.sqrt (y.getD i 0))) * 2) ++
    (List.range' m (p - k - m)).map
      (fun i => (Real.arccos (Real.sqrt (y.getD 0 0)) +
        Real.arccos (Real.sqrt (y.getD i 0))) * 2) ++
    (List.range' (min (p + k + 1) (c - 1))
        ((c - 1) - min (p + k + 1) (c - 1))).map
      (fun i => (Real.arccos (Real.sqrt (y.getD 0 0)) + Real.pi -
        Real.arccos (Real.sqrt (y.getD i 0))) * 2)

/-! ## helper lemmas about the numpy primitives -/

theorem foldl_min_le_init (t : List K) (a : K) : t.foldl min a ≤ a := by
  induction t generalizing a with
  | nil => simp
  | cons b t ih => exact (ih (min a b)).trans (min_le_left _ _)

theorem foldl_min_le_mem (t : List K) (a : K) :
    ∀ v ∈ t, t.foldl min a ≤ v := by
  induction t generalizing a with
  | nil => simp
  | cons b t ih =>
    intro v hv
    rcases List.mem_cons.1 hv with rfl | hv'
    · exact (foldl_min_le_init t (min a v)).trans (min_le_right _ _)
    · exact ih (min a b) v hv'

theorem foldl_min_mem (t : List K) (a : K) :
    t.foldl min a = a ∨ t.foldl min a ∈ t := by
  induction t generalizing a with
  | nil => simp
  | cons b t ih =>
    simp only [List.foldl_cons]
    rcases ih (min a b) with h | h
    · rcases min_cases a b with ⟨he, _⟩ | ⟨he, _⟩
      · exact Or.inl (h.trans he)
      · exact Or.inr (List.mem_cons.2 (Or.inl (h.trans he)))
    · exact Or.inr (List.mem_cons.2 (Or.inr h))

theorem npMin_le {l : List K} {v : K} (hv : v ∈ l) : npMin l ≤ v := by
  match l with
  | a :: t =>
    rw [npMin]
    rcases List.mem_cons.1 hv with rfl | hv'
    · exact foldl_min_le_init t v
    · exact foldl_min_le_mem t a v hv'

theorem npMin_mem {l : List K} (h : l ≠ []) : npMin l ∈ l := by
  match l with
  | a :: t =>
    rw [npMin]
    rcases foldl_min_mem t a with he | he
    · simp [he]
    · simp [he]

theorem foldl_max_le (t : List K) (a c : K) (ha : a ≤ c)
    (h : ∀ v ∈ t, v ≤ c) : t.foldl max a ≤ c := by
  induction t generalizing a with
  | nil => simpa
  | cons b t ih =>
    exact ih (max a b) (max_le ha (h b (by simp)))
      (fun v hv => h v (by simp [hv]))

theorem npMax_le {l : List K} {c : K} (h0 : 0 ≤ c) (h : ∀ v ∈ l, v ≤ c) :
    npMax l ≤ c := by
  match l with
  | [] => simpa [npMax] using h0
  | a :: t => exact foldl_max_le t a c (h a (by simp)) (fun v hv => h v (by simp [hv]))

theorem le_foldl_max (t : List K) (a : K) : a ≤ t.foldl max a := by
  induction t generalizing a with
  | nil => simp
  | cons b t ih => exact (le_max_left a b).trans (ih (max a b))

theorem mem_le_foldl_max (t : List K) (a : K) : ∀ v ∈ t, v ≤ t.foldl max a := by
  induction t generalizing a with
  | nil => simp
  | cons b t ih =>
    intro v hv
    rcases List.mem_cons.1 hv with rfl | hv'
    · exact (le_max_right a v).trans (le_foldl_max t (max a v))
    · exact ih (max a b) v hv'

theorem le_npMax {l : List K} {v : K} (hv : v ∈ l) : v ≤ npMax l := by
  match l with
  | a :: t =>
    rw [npMax]
    rcases List.mem_cons.1 hv with rfl | hv'
    · exact le_foldl_max t v
    · exact mem_le_foldl_max t a v hv'

theorem findIdxTrue_eq {l : List Bool} {j : ℕ} (hj : j < l.length)
    (ht : l.getD j false = true) (hf : ∀ i, i < j → l.getD i false = false) :
    findIdxTrue l = j := by
  induction l generalizing j with
  | nil => simp at hj
  | cons b t ih =>
    match j with
    | 0 =>
      simp only [List.getD_cons_zero] at ht
      simp [findIdxTrue, ht]
    | j + 1 =>
      have hb : b = false := by simpa using hf 0 (Nat.succ_pos _)
      rw [findIdxTrue, hb, if_neg (by simp)]
      have := ih (j := j) (by simpa using hj) (by simpa using ht)
        (fun i hi => by simpa using hf (i + 1) (Nat.succ_lt_succ hi))
      omega

theorem findIdxTrue_le_length (l : List Bool) : findIdxTrue l ≤ l.length := by
  induction l with
  | nil => simp [findIdxTrue]
  | cons b t ih =>
    rw [findIdxTrue]
    split
    · simp
    · simpa using Nat.succ_le_succ ih

/-- Value of `np.argmin` at a strict unique minimizer. -/
theorem npArgmin_eq {l : List K} {j : ℕ} (hj : j < l.length)
    (hmin : ∀ i, i < l.length → i ≠ j → l.getD j 0 < l.getD i 0) :
    npArgmin l = j := by
  have hne : l ≠ [] := by
    intro h; rw [h] at hj; simp at hj
  have hmem : l.getD j 0 ∈ l := by
    rw [List.getD_eq_getElem l 0 hj]
    exact l.getElem_mem hj
  have hle : ∀ v ∈ l, l.getD j 0 ≤ v := by
    intro v hv
    obtain ⟨i, hi, rfl⟩ := List.getElem_of_mem hv
    rcases eq_or_ne i j with rfl | hij
    · rw [List.getD_eq_getElem l 0 hi]
    · rw [← List.getD_eq_getElem l 0 hi]
      exact (hmin i hi hij).le
  have hminval : npMin l = l.getD j 0 :=
    le_antisymm (npMin_le hmem) (hle _ (npMin_mem hne))
  rw [npArgmin]
  refine findIdxTrue_eq (l := l.map fun v => decide (v = npMin l)) (j := j)
    (by simpa using hj) ?_ ?_
  · have h1 : j < (l.map fun v => decide (v = npMin l)).length := by simpa using hj
    rw [List.getD_eq_getElem _ false h1, List.getElem_map, decide_eq_true_eq]
    exact (hminval.trans (List.getD_eq_getElem l 0 hj)).symm
  · intro i hi
    have hil : i < l.length := hi.trans hj
    have h1 : i < (l.map fun v => decide (v = npMin l)).length := by simpa using hil
    rw [List.getD_eq_getElem _ false h1, List.getElem_map, decide_eq_false_iff_not]
    intro h
    have hnm : npMin l = l[j] := hminval.trans (List.getD_eq_getElem l 0 hj)
    have hlt := hmin i hil (Nat.ne_of_lt hi)
    rw [List.getD_eq_getElem l 0 hil, List.getD_eq_getElem l 0 hj] at hlt
    rw [h, hnm] at hlt
    exact lt_irrefl _ hlt

theorem length_diffAppendLast (l : List K) :
    (diffAppendLast l).length = l.length := by
  induction l with
  | nil => simp [diffAppendLast]
  | cons a t ih =>
    match t with
    | [] => simp [diffAppendLast]
    | b :: t' => simpa [diffAppendLast] using ih

theorem getD_diffAppendLast {l : List K} {i : ℕ} (h : i + 1 < l.length) :
    (diffAppendLast l).getD i 0 = l.getD (i + 1) 0 - l.getD i 0 := by
  induction l generalizing i with
  | nil => simp at h
  | cons a t ih =>
    match t with
    | [] => simp at h
    | b :: t' =>
      match i with
      | 0 => simp [diffAppendLast]
      | i + 1 =>
        have := ih (i := i) (by simpa using h)
        simpa [diffAppendLast] using this

theorem getD_diffAppendLast_last {l : List K} (h : l ≠ []) :
    (diffAppendLast l).getD (l.length - 1) 0 = 0 := by
  induction l with
  | nil => simp at h
  | cons a t ih =>
    match t with
    | [] => simp [diffAppendLast]
    | b :: t' => simpa [diffAppendLast] using ih (by simp)

/-! ## Interpolation lemmas -/

theorem foldl_max_mem (t : List K) (a : K) :
    t.foldl max a = a ∨ t.foldl max a ∈ t := by
  induction t generalizing a with
  | nil => simp
  | cons b t ih =>
    simp only [List.foldl_cons]
    rcases ih (max a b) with h | h
    · rcases max_cases a b with ⟨he, _⟩ | ⟨he, _⟩
      · exact Or.inl (h.trans he)
      · exact Or.inr (List.mem_cons.2 (Or.inl (h.trans he)))
    · exact Or.inr (List.mem_cons.2 (Or.inr h))

theorem npMax_mem {l : List K} (h : l ≠ []) : npMax l ∈ l := by
  match l with
  | a :: t =>
    rw [npMax]
    rcases foldl_max_mem t a with he | he
    · simp [he]
    · simp [he]

theorem npMin_singleton (t : K) : npMin [t] = t := by simp [npMin]

theorem npMax_singleton (t : K) : npMax [t] = t := by simp [npMax]

/-- The range guard of `linear_interpolation` fires exactly when some target
lies outside `[min x, max x]`. -/
theorem range_violation_iff {target x : List K} (ht : target ≠ []) :
    (npMin target < npMin x ∨ npMax x < npMax target) ↔
      ∃ t ∈ target, t < npMin x ∨ npMax x < t := by
  constructor
  · rintro (h | h)
    · exact ⟨npMin target, npMin_mem ht, Or.inl h⟩
    · exact ⟨npMax target, npMax_mem ht, Or.inr h⟩
  · rintro ⟨t, htm, h | h⟩
    · exact Or.inl (lt_of_le_of_lt (npMin_le htm) h)
    · exact Or.inr (lt_of_lt_of_le h (le_npMax htm))

/-- For a strictly ascending knot array, the knot index selected for the
target `x[j]` is `j` itself. -/
theorem interpCoefIdx_knot {x : List K} (hx : x.Pairwise (· < ·)) {j : ℕ}
    (hj : j < x.length) : interpCoefIdx x (x.getD j 0) = j := by
  have hfind :
      findIdxTrue (x.reverse.map fun v => decide (v - x.getD j 0 ≤ 0)) =
        x.length - 1 - j := by
    refine findIdxTrue_eq ?_ ?_ ?_
    · simp only [List.length_map, List.length_reverse]
      omega
    · have hlt : x.length - 1 - j <
          (x.reverse.map fun v => decide (v - x.getD j 0 ≤ 0)).length := by
        simp only [List.length_map, List.length_reverse]; omega
      rw [List.getD_eq_getElem _ _ hlt, List.getElem_map, List.getElem_reverse,
        decide_eq_true_eq]
      have hidx : x.length - 1 - (x.length - 1 - j) = j := by omega
      simp only [hidx]
      have hgd : x.getD j 0 = x[j] := List.getD_eq_getElem x 0 hj
      simp only [hgd, sub_self]
      exact le_rfl
    · intro i hi
      have hil : i < (x.reverse.map fun v => decide (v - x.getD j 0 ≤ 0)).length := by
        simp only [List.length_map, List.length_reverse]; omega
      rw [List.getD_eq_getElem _ _ hil, List.getElem_map, List.getElem_reverse,
        decide_eq_false_iff_not, not_le, sub_pos]
      have hj' : j < x.length - 1 - i := by omega
      have hpw := List.pairwise_iff_getElem.1 hx j (x.length - 1 - i) hj
        (by omega) hj'
      have hgd : x.getD j 0 = x[j] := List.getD_eq_getElem x 0 hj
      exact lt_of_le_of_lt hgd.le hpw
  rw [interpCoefIdx, npArgmaxBool, hfind]
  have hne : ¬ (x.length - 1 - j =
      (x.reverse.map fun v => decide (v - x.getD j 0 ≤ 0)).length) := by
    simp only [List.length_map, List.length_reverse]
    omega
  rw [if_neg hne]
  omega

/-- Exactness of `interpAt` at a knot of a strictly ascending knot array: the
duplicated final knot keeps the lookup in bounds and the zero offset kills
the slope term. -/
theorem interpAt_knot (x y : List K) (j : ℕ) (hx : x.Pairwise (· < ·))
    (hlen : y.length = x.length) (hj : j < x.length) :
    interpAt x y (x.getD j 0) = y.getD j 0 := by
  rw [interpAt, interpCoefIdx_knot hx hj]
  rw [List.getD_append _ _ 0 j hj, sub_self, zero_mul, add_zero,
    List.getD_append _ _ 0 j (by omega)]

/-- Exactness of `linear_interpolation` at a knot. -/
theorem linear_interpolation_exact_at_knot (x y : List K) (j : ℕ)
    (hx : x.Pairwise (· < ·)) (hlen : y.length = x.length)
    (hj : j < x.length) :
    linear_interpolation [x.getD j 0] x y = .ok [y.getD j 0] := by
  have hxne : x ≠ [] := by
    intro h; rw [h] at hj; simp at hj
  have hyne : y ≠ [] := by
    intro h; rw [h] at hlen; simp at hlen; omega
  have hmem : x.getD j 0 ∈ x := by
    rw [List.getD_eq_getElem x 0 hj]; exact x.getElem_mem hj
  rw [linear_interpolation]
  rw [if_neg (by simp [hxne])]
  rw [if_neg (by
    rw [npMin_singleton, npMax_singleton]
    push_neg
    exact ⟨npMin_le hmem, le_npMax hmem⟩)]
  rw [if_neg (by simp [hyne])]
  rw [List.map_cons, List.map_nil, interpAt_knot x y j hx hlen hj]

/-- Interpolating a strictly ascending knot array against itself returns the
image knots unchanged. -/
theorem linear_interpolation_self (x y : List K) (hx : x.Pairwise (· < ·))
    (hne : x ≠ []) (hlen : y.length = x.length) :
    linear_interpolation x x y = .ok y := by
  have hyne : y ≠ [] := by
    intro h
    rw [h] at hlen
    exact hne (List.length_eq_zero.1 hlen.symm)
  rw [linear_interpolation]
  rw [if_neg (by simp [hne])]
  rw [if_neg (by simp)]
  rw [if_neg (by simp [hyne])]
  refine congrArg Except.ok ?_
  refine List.ext_getElem (by simp [hlen]) ?_
  intro i hi hiy
  have hix : i < x.length := by simpa using hi
  rw [List.getElem_map]
  have hgd : x[i] = x.getD i 0 := (List.getD_eq_getElem x 0 hix).symm
  rw [hgd, interpAt_knot x y i hx hlen hix, List.getD_eq_getElem y 0 hiy]

/-! ## Claim C4 -/

/-- Claim C4: `linear_interpolation` raises the range error if and only if
some value of `targets` lies outside the closed interval
`[min(x), max(x)]`; for targets entirely within the interval it returns a
result without error. -/
theorem C4_linear_interpolation_range_error (target x y : List K)
    (htarget : target ≠ []) (hx : x ≠ []) (hy : y ≠ []) :
    (linear_interpolation target x y =
        .error "Linear interpolation failed: Some target values not in range of x" ↔
      ∃ t ∈ target, t < npMin x ∨ npMax x < t) ∧
    ((∀ t ∈ target, npMin x ≤ t ∧ t ≤ npMax x) →
      ∃ r, linear_interpolation target x y = .ok r) := by
  rw [linear_interpolation]
  rw [if_neg (by simp [htarget, hx])]
  by_cases hr : npMin target < npMin x ∨ npMax x < npMax target
  · rw [if_pos hr]
    refine ⟨iff_of_true rfl ((range_violation_iff htarget).1 hr), ?_⟩
    intro hall
    obtain ⟨t, htm, hout⟩ := (range_violation_iff htarget).1 hr
    rcases hout with h | h
    · exact absurd (hall t htm).1 (not_le.2 h)
    · exact absurd (hall t htm).2 (not_le.2 h)
  · rw [if_neg hr, if_neg (by simp [hy])]
    refine ⟨iff_of_false (by simp) ?_, fun _ => ⟨_, rfl⟩⟩
    intro hex
    exact hr ((range_violation_iff htarget).2 hex)

/-- Witness for C4: with `x=[0,10]`, `y=[0,1]` the target `[11]` fails with
the range error, and the in-range target `[5]` succeeds. -/
theorem C4_witness :
    (([(11 : ℚ)] : List ℚ) ≠ [] ∧ ([0, 10] : List ℚ) ≠ [] ∧
      ([0, 1] : List ℚ) ≠ [] ∧
      (∃ t ∈ ([(11 : ℚ)] : List ℚ),
        t < npMin ([0, 10] : List ℚ) ∨ npMax ([0, 10] : List ℚ) < t) ∧
      linear_interpolation ([(11 : ℚ)] : List ℚ) [0, 10] [0, 1] =
        .error "Linear interpolation failed: Some target values not in range of x") ∧
    ((∀ t ∈ ([(5 : ℚ)] : List ℚ),
        npMin ([0, 10] : List ℚ) ≤ t ∧ t ≤ npMax ([0, 10] : List ℚ)) ∧
      ∃ r, linear_interpolation ([(5 : ℚ)] : List ℚ) [0, 10] [0, 1] = .ok r) := by
  constructor
  · refine ⟨by decide, by decide, by decide, by decide, ?_⟩
    exact (C4_linear_interpolation_range_error [(11 : ℚ)] [0, 10] [0, 1]
      (by decide) (by decide) (by decide)).1.mpr (by decide)
  · refine ⟨by decide, ?_⟩
    exact (C4_linear_interpolation_range_error [(5 : ℚ)] [0, 10] [0, 1]
      (by decide) (by decide) (by decide)).2 (by decide)

/-! ## Claim C5 -/

/-- Claim C5: for every strictly ascending `x`, every `y` of the same length,
and every knot index `j`, `linear_interpolation` applied to the target
`x[j]` returns exactly `y[j]` — including the last knot, where the
duplicated final knot avoids an out-of-bounds lookup. -/
theorem C5_interpolation_exact_at_knots (x y : List K) (j : ℕ)
    (hx : x.Pairwise (· < ·)) (hlen : y.length = x.length)
    (hj : j < x.length) :
    linear_interpolation [x.getD j 0] x y = .ok [y.getD j 0] :=
  linear_interpolation_exact_at_knot x y j hx hlen hj

/-- Witness for C5 at the last knot of `x=[0,10]`, `y=[0,1]` (the case the
duplicated final knot exists for). -/
theorem C5_witness :
    (([0, 10] : List ℚ).Pairwise (· < ·) ∧
      ([0, 1] : List ℚ).length = ([0, 10] : List ℚ).length ∧
      1 < ([0, 10] : List ℚ).length) ∧
    linear_interpolation ([(10 : ℚ)] : List ℚ) [0, 10] [0, 1] = .ok [1] :=
  ⟨⟨by decide, by decide, by decide⟩,
    C5_interpolation_exact_at_knots ([0, 10] : List ℚ) [0, 1] 1
      (by decide) (by decide) (by decide)⟩

/-! ## Arithmetic facts about `npSign` -/

theorem npSign_of_pos {a : K} (h : 0 < a) : npSign a = 1 := by
  rw [npSign, if_neg (by linarith), if_pos h]

theorem npSign_of_neg {a : K} (h : a < 0) : npSign a = -1 := by
  rw [npSign, if_pos h]

theorem npSign_of_zero : npSign (0 : K) = 0 := by
  rw [npSign, if_neg (by simp), if_neg (by simp)]

theorem npSign_le_one (a : K) : npSign a ≤ 1 := by
  rw [npSign]
  split
  · norm_num
  · split <;> norm_num

theorem neg_one_le_npSign (a : K) : -1 ≤ npSign a := by
  rw [npSign]
  split
  · norm_num
  · split <;> norm_num

theorem npSign_mono {a b : K} (h : a ≤ b) : npSign a ≤ npSign b := by
  rcases lt_trichotomy a 0 with ha | ha | ha
  · rw [npSign_of_neg ha]
    exact neg_one_le_npSign b
  · subst ha
    rw [npSign_of_zero, npSign]
    rw [if_neg (by linarith)]
    split <;> norm_num
  · rw [npSign_of_pos ha, npSign_of_pos (lt_of_lt_of_le ha h)]

theorem npSign_nonneg {a : K} (h : 0 ≤ a) : 0 ≤ npSign a := by
  rcases eq_or_lt_of_le h with rfl | h'
  · rw [npSign_of_zero]
  · rw [npSign_of_pos h']
    norm_num

theorem npSign_ne_one_of_nonpos {a : K} (h : a ≤ 0) : npSign a ≠ 1 := by
  rcases eq_or_lt_of_le h with rfl | h'
  · rw [npSign_of_zero]
    norm_num
  · rw [npSign_of_neg h']
    norm_num

/-! ## Facts about `arccos (sqrt v)` (the inverted cos² transfer law) -/

theorem asq_nonneg (v : ℝ) : 0 ≤ Real.arccos (Real.sqrt v) :=
  Real.arccos_nonneg _

theorem asq_le_pi_div_two (v : ℝ) :
    Real.arccos (Real.sqrt v) ≤ Real.pi / 2 :=
  Real.arccos_le_pi_div_two.2 (Real.sqrt_nonneg v)

theorem asq_lt_pi_div_two {v : ℝ} (h : 0 < v) :
    Real.arccos (Real.sqrt v) < Real.pi / 2 :=
  Real.arccos_lt_pi_div_two.2 (Real.sqrt_pos.2 h)

theorem asq_pos {v : ℝ} (h0 : 0 ≤ v) (h1 : v < 1) :
    0 < Real.arccos (Real.sqrt v) := by
  refine Real.arccos_pos.2 ?_
  calc Real.sqrt v < Real.sqrt 1 := Real.sqrt_lt_sqrt h0 h1
    _ = 1 := Real.sqrt_one

theorem asq_lt_asq {u v : ℝ} (h0 : 0 ≤ u) (huv : u < v) (h1 : v ≤ 1) :
    Real.arccos (Real.sqrt v) < Real.arccos (Real.sqrt u) := by
  refine Real.strictAntiOn_arccos ?_ ?_ (Real.sqrt_lt_sqrt h0 huv)
  · exact ⟨le_trans (by norm_num) (Real.sqrt_nonneg u),
      Real.sqrt_le_one.2 (le_trans huv.le h1)⟩
  · exact ⟨le_trans (by norm_num) (Real.sqrt_nonneg v), Real.sqrt_le_one.2 h1⟩

/-! ## Positional list helpers -/

theorem getD_map_of_lt {α β : Type} (f : α → β) (l : List α) {i : ℕ}
    (h : i < l.length) (d : β) (d' : α) :
    (l.map f).getD i d = f (l.getD i d') := by
  rw [List.getD_eq_getElem _ d (by simpa using h), List.getElem_map,
    List.getD_eq_getElem _ d' h]

theorem getD_take_of_lt {α : Type} (l : List α) {i kk : ℕ} (h : i < kk)
    (hl : i < l.length) (d : α) : (l.take kk).getD i d = l.getD i d := by
  rw [List.getD_eq_getElem _ d (by simp; omega), List.getElem_take,
    List.getD_eq_getElem _ d hl]

theorem getD_drop {α : Type} (l : List α) (s i : ℕ) (d : α) :
    (l.drop s).getD i d = l.getD (s + i) d := by
  by_cases h : s + i < l.length
  · rw [List.getD_eq_getElem _ d (by simp; omega), List.getElem_drop,
      List.getD_eq_getElem _ d h]
  · rw [List.getD_eq_default _ d (by simp; omega),
      List.getD_eq_default _ d (by omega)]

theorem getD_map_range' {α : Type} (f : ℕ → α) (s len : ℕ) {i : ℕ}
    (h : i < len) (d : α) :
    ((List.range' s len).map f).getD i d = f (s + i) := by
  rw [List.getD_eq_getElem _ d (by simpa using h), List.getElem_map,
    List.getElem_range']
  congr 1
  omega

theorem take_eq_map_range' {α : Type} (l : List α) (d : α) {kk : ℕ}
    (h : kk ≤ l.length) :
    l.take kk = (List.range' 0 kk).map (fun i => l.getD i d) := by
  refine List.ext_getElem (by simp; omega) ?_
  intro i hi hi'
  rw [List.getElem_take, List.getElem_map, List.getElem_range']
  rw [List.getD_eq_getElem _ d (by simp at hi; omega)]
  congr 1
  omega

theorem drop_eq_map_range' {α : Type} (l : List α) (d : α) (s : ℕ) :
    l.drop s = (List.range' s (l.length - s)).map (fun i => l.getD i d) := by
  refine List.ext_getElem (by simp) ?_
  intro i hi hi'
  rw [List.getElem_drop, List.getElem_map, List.getElem_range']
  rw [List.getD_eq_getElem _ d (by simp at hi; omega)]
  congr 1
  omega

theorem zipWith_map_same {α β γ : Type} (f : β → γ → α) (g : ℕ → β)
    (h : ℕ → γ) (r : List ℕ) :
    List.zipWith f (r.map g) (r.map h) = r.map (fun i => f (g i) (h i)) := by
  induction r with
  | nil => simp
  | cons a t ih => simp [ih]

theorem head?_map_range' {α : Type} (f : ℕ → α) (s : ℕ) {len : ℕ}
    (h : 0 < len) : ((List.range' s len).map f).head? = some (f s) := by
  match len with
  | len + 1 => rw [List.range'_succ]; simp

theorem getLast?_map_range' {α : Type} (f : ℕ → α) (s : ℕ) {len : ℕ}
    (h : 0 < len) :
    ((List.range' s len).map f).getLast? = some (f (s + len - 1)) := by
  have hlen : ((List.range' s len).map f).length = len := by simp
  rw [List.getLast?_eq_getElem?, hlen, List.getElem?_eq_getElem (by simp; omega)]
  rw [List.getElem_map, List.getElem_range']
  congr 2
  omega

theorem chain'_map_range' {α : Type} {R : α → α → Prop} (f : ℕ → α)
    (s len : ℕ) (h : ∀ i, s ≤ i → i + 1 < s + len → R (f i) (f (i + 1))) :
    List.Chain' R ((List.range' s len).map f) := by
  induction len generalizing s with
  | zero => simp
  | succ len ih =>
    rw [List.range'_succ, List.map_cons]
    match len, ih with
    | 0, _ => simp
    | len + 1, ih =>
      rw [List.range'_succ, List.map_cons, List.chain'_cons]
      constructor
      · exact h s le_rfl (by omega)
      · rw [← List.map_cons, ← List.range'_succ]
        exact ih (s + 1) (fun i hi hi' => h i (by omega) (by omega))

section ValidSweepDev

variable {x y : List ℝ} {k m p c : ℕ}

theorem vs_rise_le (h : ValidSweep x y k m p c) {i j : ℕ} (hij : i ≤ j)
    (hjm : j ≤ m) : y.getD i 0 ≤ y.getD j 0 := by
  induction j, hij using Nat.le_induction with
  | base => exact le_rfl
  | succ j hij ih =>
      exact le_trans (ih (by omega)) (h.hrise j (by omega)).le

theorem vs_rise_lt (h : ValidSweep x y k m p c) {i j : ℕ} (hij : i < j)
    (hjm : j ≤ m) : y.getD i 0 < y.getD j 0 := by
  obtain ⟨j, rfl⟩ : ∃ j', j = j' + 1 := ⟨j - 1, by omega⟩
  exact lt_of_le_of_lt (vs_rise_le h (by omega) (by omega))
    (h.hrise j (by omega))

theorem vs_fall_le (h : ValidSweep x y k m p c) {i j : ℕ} (him : m ≤ i)
    (hij : i ≤ j) (hjp : j ≤ p) : y.getD j 0 ≤ y.getD i 0 := by
  induction j, hij using Nat.le_induction with
  | base => exact le_rfl
  | succ j hij ih =>
      exact le_trans (h.hfall j (by omega) (by omega)).le (ih (by omega))

theorem vs_fall_lt (h : ValidSweep x y k m p c) {i j : ℕ} (him : m ≤ i)
    (hij : i < j) (hjp : j ≤ p) : y.getD j 0 < y.getD i 0 := by
  obtain ⟨j, rfl⟩ : ∃ j', j = j' + 1 := ⟨j - 1, by omega⟩
  exact lt_of_lt_of_le (h.hfall j (by omega) (by omega))
    (vs_fall_le h him (by omega) (by omega))

theorem vs_rise2_le (h : ValidSweep x y k m p c) {i j : ℕ} (hip : p ≤ i)
    (hij : i ≤ j) (hjc : j ≤ c - 1) : y.getD i 0 ≤ y.getD j 0 := by
  induction j, hij using Nat.le_induction with
  | base => exact le_rfl
  | succ j hij ih =>
      have hc := h.hpc
      exact le_trans (ih (by omega)) (h.hrise2 j (by omega) (by omega)).le

theorem vs_rise2_lt (h : ValidSweep x y k m p c) {i j : ℕ} (hip : p ≤ i)
    (hij : i < j) (hjc : j ≤ c - 1) : y.getD i 0 < y.getD j 0 := by
  obtain ⟨j, rfl⟩ : ∃ j', j = j' + 1 := ⟨j - 1, by omega⟩
  have hc := h.hpc
  exact lt_of_le_of_lt (vs_rise2_le h hip (by omega) (by omega))
    (h.hrise2 j (by omega) (by omega))

/-- Step 1 of the algorithm is a no-op on a normalized sweep. -/
theorem vs_normalize (h : ValidSweep x y k m p c) :
    normalizeIntensities y = y := by
  rw [normalizeIntensities, if_neg]
  rw [not_lt]
  refine npMax_le (by norm_num) ?_
  intro v hv
  obtain ⟨i, hi, rfl⟩ := List.getElem_of_mem hv
  rw [← List.getD_eq_getElem y 0 hi]
  exact (h.h01 i hi).2

end ValidSweepDev

theorem slopesOf_length (y : List K) : (slopesOf y).length = y.length := by
  simp [slopesOf, length_diffAppendLast]

theorem slopesOf_getD {y : List K} {i : ℕ} (h : i + 1 < y.length) :
    (slopesOf y).getD i 0 = npSign (y.getD (i + 1) 0 - y.getD i 0) := by
  rw [slopesOf, getD_map_of_lt npSign _ (by rw [length_diffAppendLast]; omega) 0 0,
    getD_diffAppendLast h]

theorem headD_eq_getD {α : Type} (l : List α) (d : α) :
    l.headD d = l.getD 0 d := by
  cases l <;> simp

theorem distFrom1st_length (y : List K) :
    (distFrom1st y).length = y.length := by simp [distFrom1st]

theorem distFrom1st_getD {y : List K} {i : ℕ} (h : i < y.length) :
    (distFrom1st y).getD i 0 = npSign (y.getD i 0 - y.getD 0 0) := by
  rw [distFrom1st]
  rw [getD_map_of_lt _ _ h 0 0, headD_eq_getD]

theorem periodDelim_length (y : List K) :
    (periodDelim y).length = y.length := by
  simp [periodDelim, length_diffAppendLast, distFrom1st]

theorem periodDelim_getD {y : List K} {i : ℕ} (hi : i + 1 < y.length) :
    (periodDelim y).getD i false =
      decide (npSign ((distFrom1st y).getD (i + 1) 0 -
        (distFrom1st y).getD i 0) = (slopesOf y).headD 0) := by
  rw [periodDelim]
  rw [getD_map_of_lt _ _ (by rw [length_diffAppendLast, distFrom1st_length]; omega) false 0]
  rw [getD_diffAppendLast (by rw [distFrom1st_length]; omega)]

section ValidSweepDev2

variable {x y : List ℝ} {k m p c : ℕ}

theorem vs_bounds (h : ValidSweep x y k m p c) :
    1 ≤ m ∧ m + k < p ∧ p + 2 ≤ c ∧ c < y.length :=
  ⟨h.hm, h.hmp, h.hpc, h.hcn⟩

theorem vs_slope_rise (h : ValidSweep x y k m p c) {i : ℕ} (hi : i < m) :
    (slopesOf y).getD i 0 = 1 := by
  have hb := vs_bounds h
  rw [slopesOf_getD (by omega)]
  exact npSign_of_pos (sub_pos.2 (h.hrise i hi))

theorem vs_slope_fall (h : ValidSweep x y k m p c) {i : ℕ} (hm' : m ≤ i)
    (hip : i < p) : (slopesOf y).getD i 0 = -1 := by
  have hb := vs_bounds h
  rw [slopesOf_getD (by omega)]
  exact npSign_of_neg (sub_neg.2 (h.hfall i hm' hip))

theorem vs_slope_rise2 (h : ValidSweep x y k m p c) {i : ℕ} (hp' : p ≤ i)
    (hic : i + 1 < c) : (slopesOf y).getD i 0 = 1 := by
  have hb := vs_bounds h
  rw [slopesOf_getD (by omega)]
  exact npSign_of_pos (sub_pos.2 (h.hrise2 i hp' hic))

theorem vs_slopes_head (h : ValidSweep x y k m p c) :
    (slopesOf y).headD 0 = 1 := by
  rw [headD_eq_getD]
  exact vs_slope_rise h h.hm

theorem vs_dist_rise (h : ValidSweep x y k m p c) {i : ℕ} (h1 : 1 ≤ i)
    (him : i ≤ m) : (distFrom1st y).getD i 0 = 1 := by
  have hb := vs_bounds h
  rw [distFrom1st_getD (by omega)]
  exact npSign_of_pos (sub_pos.2 (vs_rise_lt h (by omega) him))

theorem vs_dist_below (h : ValidSweep x y k m p c) {i : ℕ} (hp' : p ≤ i)
    (hic : i < c) : (distFrom1st y).getD i 0 = -1 := by
  have hb := vs_bounds h
  rw [distFrom1st_getD (by omega)]
  exact npSign_of_neg (sub_neg.2 (h.hbelow i hp' hic))

theorem vs_dist_mono (h : ValidSweep x y k m p c) {i : ℕ} (h1 : 1 ≤ i)
    (hic : i ≤ c - 2) :
    (distFrom1st y).getD (i + 1) 0 ≤ (distFrom1st y).getD i 0 := by
  have hb := vs_bounds h
  rcases lt_trichotomy i m with him | him | him
  · -- both in the rising plateau: both equal 1
    rw [vs_dist_rise h h1 (by omega), vs_dist_rise h (by omega) (by omega)]
  · -- i = m: dist is 1 there and at most 1 after
    subst him
    rw [vs_dist_rise h h1 le_rfl, distFrom1st_getD (by omega)]
    exact npSign_le_one _
  · rcases lt_or_le i p with hip | hip
    · -- m < i < p: y decreasing, sign monotone
      rw [distFrom1st_getD (by omega), distFrom1st_getD (by omega)]
      exact npSign_mono (by have := h.hfall i (by omega) hip; linarith)
    · -- p ≤ i: both below the first sample, both -1
      rw [vs_dist_below h hip (by omega), vs_dist_below h (by omega) (by omega)]

theorem vs_delim_false (h : ValidSweep x y k m p c) {i : ℕ} (h1 : 1 ≤ i)
    (hic : i ≤ c - 2) : (periodDelim y).getD i false = false := by
  have hb := vs_bounds h
  rw [periodDelim_getD (by omega), vs_slopes_head h]
  rw [decide_eq_false_iff_not]
  exact npSign_ne_one_of_nonpos (sub_nonpos.2 (vs_dist_mono h h1 hic))

theorem vs_delim_true (h : ValidSweep x y k m p c) :
    (periodDelim y).getD (c - 1) false = true := by
  have hb := vs_bounds h
  have hc1 : c - 1 + 1 = c := by omega
  rw [periodDelim_getD (by omega), vs_slopes_head h, hc1]
  rw [decide_eq_true_eq]
  have hcm1 : (distFrom1st y).getD (c - 1) 0 = -1 :=
    vs_dist_below h (by omega) (by omega)
  have hcc : 0 ≤ (distFrom1st y).getD c 0 := by
    rw [distFrom1st_getD (by omega)]
    exact npSign_nonneg (sub_nonneg.2 h.hcross)
  rw [hcm1]
  exact npSign_of_pos (by linarith)

theorem vs_periodEndIdx (h : ValidSweep x y k m p c) :
    periodEndIdx y = c - 1 := by
  have hb := vs_bounds h
  have hfind : findIdxTrue ((periodDelim y).drop 1) = c - 2 := by
    refine findIdxTrue_eq ?_ ?_ ?_
    · rw [List.length_drop, periodDelim_length]
      omega
    · rw [getD_drop]
      have : 1 + (c - 2) = c - 1 := by omega
      rw [this]
      exact vs_delim_true h
    · intro i hi
      rw [getD_drop]
      have : 1 + i = i + 1 := by omega
      rw [this]
      exact vs_delim_false h (by omega) (by omega)
  rw [periodEndIdx, npArgmaxBool, hfind]
  rw [if_neg (by rw [List.length_drop, periodDelim_length]; omega)]
  omega

theorem vs_truncate (h : ValidSweep x y k m p c) :
    truncateSweep x y (slopesOf y) =
      (x.take (c - 1), y.take (c - 1), (slopesOf y).take (c - 1)) := by
  have hb := vs_bounds h
  rw [truncateSweep, if_pos (by rw [periodDelim_length]; omega),
    vs_periodEndIdx h]

end ValidSweepDev2

/-! ## Claim C2 -/

/-- Claim C2 (the code violates this claim): on the sweep
`intensities = [1/4, 1/2, 1, 3/4, 1/8]` (rising to the maximum, falling to
the final minimum, never crossing back above the first sample) the
period-end predicate holds at no index after the start — `period_delim` is
`[T, F, F, F, F]` — yet `np.argmax` of the all-`False` tail returns `0`, so
`period_end_idx = 1` and the truncation keeps only the first sample instead
of the full sweep; the subsequent minimum-window masking then deletes even
that sample, and the function returns just the synthetic point
`(1023, 2π)`. -/
theorem C2_truncation_discards_when_no_period_end :
    periodDelim ([1/4, 1/2, 1, 3/4, 1/8] : List ℝ) =
      [true, false, false, false, false] ∧
    periodEndIdx ([1/4, 1/2, 1, 3/4, 1/8] : List ℝ) = 1 ∧
    truncateSweep ([0, 1, 2, 3, 4] : List ℝ) [1/4, 1/2, 1, 3/4, 1/8]
        (slopesOf [1/4, 1/2, 1, 3/4, 1/8]) =
      ([0], [1/4], [1]) ∧
    map_grayscale_to_phase [0, 1, 2, 3, 4] [1/4, 1/2, 1, 3/4, 1/8] 1 =
      ([1023], [2 * Real.pi]) := by
  refine ⟨?_, ?_, ?_, ?_⟩ <;>
    norm_num [map_grayscale_to_phase, extractStages, normalizeIntensities,
      npMax, npMin, slopesOf, distFrom1st, periodDelim, periodEndIdx,
      truncateSweep, maskMinimum, npArgmin, npArgmaxBool, findIdxTrue,
      diffAppendLast, npSign, pySliceDelete, stitchPhases, unwrapPhases,
      branchPhases, zeroIdx, List.getLastD, max_def, min_def]

/-! ## Claim C3 -/

/-- Evaluation of the truncation and masking stages on the sweep
`grayscales = [0, 200, 400, 600, 800, 1023]`,
`intensities = [1/4, 3/4, 1, 1/2, 1/4, 5/8]` with `ignored_samples = 1`:
the sweep is truncated to its first four samples, whose minimum sits at
index `0`, and the masking step removes nothing because the negative slice
start `0 - 1` wraps to index `3 ≥ 2`. -/
theorem extractStages_eval_c3c6 :
    npArgmin ((truncateSweep ([0, 200, 400, 600, 800, 1023] : List ℝ)
        [1/4, 3/4, 1, 1/2, 1/4, 5/8]
        (slopesOf [1/4, 3/4, 1, 1/2, 1/4, 5/8])).2.1) = 0 ∧
    (truncateSweep ([0, 200, 400, 600, 800, 1023] : List ℝ)
        [1/4, 3/4, 1, 1/2, 1/4, 5/8]
        (slopesOf [1/4, 3/4, 1, 1/2, 1/4, 5/8])).2.1.length = 4 ∧
    extractStages 1 ([0, 200, 400, 600, 800, 1023] : List ℝ)
        [1/4, 3/4, 1, 1/2, 1/4, 5/8] =
      ([0, 200, 400, 600], [1/4, 3/4, 1, 1/2], [1, 1, -1, -1]) := by
  refine ⟨?_, ?_, ?_⟩ <;>
    norm_num [extractStages, normalizeIntensities, npMax, npMin, slopesOf,
      distFrom1st, periodDelim, periodEndIdx, truncateSweep, maskMinimum,
      npArgmin, npArgmaxBool, findIdxTrue, diffAppendLast, npSign,
      pySliceDelete, max_def, min_def]

/-- Counterexample to claim C3: on the truncated sweep of
`extractStages_eval_c3c6` the global-minimum index `0` lies within
`ignored_samples = 1` of the lower end, but the discard window is *not*
clipped at the boundary: nothing at all is removed (the masked arrays still
have all 4 samples, not `4 - 2`). -/
theorem C3_counterexample :
    npArgmin ((truncateSweep ([0, 200, 400, 600, 800, 1023] : List ℝ)
        [1/4, 3/4, 1, 1/2, 1/4, 5/8]
        (slopesOf [1/4, 3/4, 1, 1/2, 1/4, 5/8])).2.1) = 0 ∧
    (extractStages 1 ([0, 200, 400, 600, 800, 1023] : List ℝ)
        [1/4, 3/4, 1, 1/2, 1/4, 5/8]).2.1 =
      (truncateSweep ([0, 200, 400, 600, 800, 1023] : List ℝ)
        [1/4, 3/4, 1, 1/2, 1/4, 5/8]
        (slopesOf [1/4, 3/4, 1, 1/2, 1/4, 5/8])).2.1 ∧
    (extractStages 1 ([0, 200, 400, 600, 800, 1023] : List ℝ)
        [1/4, 3/4, 1, 1/2, 1/4, 5/8]).2.1.length = 4 := by
  obtain ⟨h1, h2, h3⟩ := extractStages_eval_c3c6
  refine ⟨h1, ?_, ?_⟩
  · rw [h3]
    refine Eq.symm ?_
    norm_num [truncateSweep, normalizeIntensities, npMax, npMin, slopesOf,
      distFrom1st, periodDelim, periodEndIdx, npArgmaxBool, findIdxTrue,
      diffAppendLast, npSign, max_def, min_def]
  · rw [h3]
    rfl

/-- Deletion via `pySliceDelete` with a nonnegative start below both the stop and the
length removes exactly the in-bounds part of the slice. -/
theorem pySliceDelete_eq_take_drop {α : Type} (l : List α) (s t : ℤ)
    (hs : 0 ≤ s) (ht : 0 ≤ t) (hst : s < min t (l.length : ℤ)) :
    pySliceDelete l s t =
      l.take s.toNat ++ l.drop (min t (l.length : ℤ)).toNat := by
  rw [pySliceDelete]
  have h1 : (if s < 0 then max ((l.length : ℤ) + s) 0 else min s l.length) = s := by
    rw [if_neg (by omega)]
    omega
  have h2 : (if t < 0 then max ((l.length : ℤ) + t) 0 else min t l.length) =
      min t (l.length : ℤ) := by
    rw [if_neg (by omega)]
  simp only [h1, h2]
  rw [if_pos hst]

/-- Deletion via `pySliceDelete` with a negative start whose wrapped value reaches the
stop removes nothing. -/
theorem pySliceDelete_eq_self_of_wrap {α : Type} (l : List α) (s t : ℤ)
    (hs : s < 0) (ht : 0 ≤ t)
    (hw : min t (l.length : ℤ) ≤ max ((l.length : ℤ) + s) 0) :
    pySliceDelete l s t = l := by
  rw [pySliceDelete]
  have h1 : (if s < 0 then max ((l.length : ℤ) + s) 0 else min s l.length) =
      max ((l.length : ℤ) + s) 0 := by rw [if_pos hs]
  have h2 : (if t < 0 then max ((l.length : ℤ) + t) 0 else min t l.length) =
      min t (l.length : ℤ) := by rw [if_neg (by omega)]
  simp only [h1, h2]
  rw [if_neg (by omega)]

/-- On any list whose length exceeds `pp`, deleting the slice
`[pp - kk : pp + kk + 1]` with `kk ≤ pp` removes exactly the in-bounds
window, the stop clipped at the upper boundary. -/
theorem pySliceDelete_argmin_window {α : Type} (l : List α) (pp kk : ℕ)
    (hk : kk ≤ pp) (hp : pp < l.length) :
    pySliceDelete l ((pp : ℤ) - kk) ((pp : ℤ) + kk + 1) =
      l.take (pp - kk) ++ l.drop (min (pp + kk + 1) l.length) := by
  have h := pySliceDelete_eq_take_drop l ((pp : ℤ) - kk)
    ((pp : ℤ) + kk + 1) (by omega) (by omega)
    (lt_min (by omega) (by omega))
  have e1 : (((pp : ℤ)) - kk).toNat = pp - kk := by omega
  have e2 : (min ((pp : ℤ) + kk + 1) (l.length : ℤ)).toNat =
      min (pp + kk + 1) l.length := by
    rcases le_total ((pp : ℤ) + kk + 1) (l.length : ℤ) with hle | hle
    · rw [min_eq_left hle,
        min_eq_left (show pp + kk + 1 ≤ l.length by omega)]
      omega
    · rw [min_eq_right hle,
        min_eq_right (show l.length ≤ pp + kk + 1 by omega)]
      omega
  rw [h, e1, e2]

/-- Claim C3 amended: when the minimum index `p = argmin(y)` satisfies
`k ≤ p`, the discard window `[p-k : p+k+1]` is removed with its stop
clipped at the upper boundary (so exactly the in-bounds samples go); but
when `p < k`, the negative slice start wraps around to `len + p - k`, and
whenever that wrapped start is not below the stop — in particular whenever
`p + k + 1 ≤ len + p - k` — nothing is removed at all. -/
theorem C3_amended_mask_window (k : ℕ) (x y s : List K) :
    (k ≤ npArgmin y → npArgmin y < y.length →
      (maskMinimum k x y s).2.1 =
        y.take (npArgmin y - k) ++
          y.drop (min (npArgmin y + k + 1) y.length)) ∧
    (npArgmin y < k →
      ((npArgmin y : ℤ) + k + 1 ≤ (y.length : ℤ) + npArgmin y - k →
        (maskMinimum k x y s).2.1 = y)) := by
  constructor
  · intro hk hp
    rw [maskMinimum, pySliceDelete_argmin_window y (npArgmin y) k hk hp]
  · intro hk hw
    have h := pySliceDelete_eq_self_of_wrap y ((npArgmin y : ℤ) - k)
      ((npArgmin y : ℤ) + k + 1) (by omega) (by omega)
      (le_max_of_le_left (le_trans (min_le_left _ _) (by omega)))
    rw [maskMinimum]
    rw [h]

/-- Witness for the amended C3: with `y = [3, 1, 2]`, `k = 1` the window
around `argmin = 1` covers everything and the result is empty (upper clip),
and with `y = [1, 2, 3, 4, 5]`, `k = 2` the wrapped start equals the stop
and nothing is removed. -/
theorem C3_witness :
    ((1 : ℕ) ≤ npArgmin ([3, 1, 2] : List ℚ) ∧
      npArgmin ([3, 1, 2] : List ℚ) < ([3, 1, 2] : List ℚ).length ∧
      (maskMinimum 1 ([10, 11, 12] : List ℚ) [3, 1, 2] [0, 0, 0]).2.1 =
        ([3, 1, 2] : List ℚ).take (npArgmin ([3, 1, 2] : List ℚ) - 1) ++
          ([3, 1, 2] : List ℚ).drop
            (min (npArgmin ([3, 1, 2] : List ℚ) + 1 + 1)
              ([3, 1, 2] : List ℚ).length)) ∧
    (npArgmin ([1, 2, 3, 4, 5] : List ℚ) < 2 ∧
      (maskMinimum 2 ([10, 11, 12, 13, 14] : List ℚ) [1, 2, 3, 4, 5]
        [0, 0, 0, 0, 0]).2.1 = [1, 2, 3, 4, 5]) := by
  constructor
  · exact ⟨by decide, by decide,
      (C3_amended_mask_window 1 [10, 11, 12] [3, 1, 2] [0, 0, 0]).1
        (by decide) (by decide)⟩
  · exact ⟨by decide,
      (C3_amended_mask_window 2 [10, 11, 12, 13, 14] [1, 2, 3, 4, 5]
        [0, 0, 0, 0, 0]).2 (by decide) (by decide)⟩

/-! ## Claim C6 -/

/-- Counterexample to claim C6: the appended synthetic `(1023, 2π)` point is
governed by the *processed* (truncated and masked) sweep, not by the input:
here the input's last grayscale *is* `1023`, yet the processed sweep ends
at `600`, so a synthetic final point is appended anyway and the returned
grayscales are longer than the processed sweep. -/
theorem C6_counterexample :
    ([0, 200, 400, 600, 800, 1023] : List ℝ).getLastD 0 = 1023 ∧
    (extractStages 1 ([0, 200, 400, 600, 800, 1023] : List ℝ)
        [1/4, 3/4, 1, 1/2, 1/4, 5/8]).1 = [0, 200, 400, 600] ∧
    (map_grayscale_to_phase [0, 200, 400, 600, 800, 1023]
        [1/4, 3/4, 1, 1/2, 1/4, 5/8] 1).1 = [0, 200, 400, 600, 1023] := by
  obtain ⟨-, -, h3⟩ := extractStages_eval_c3c6
  refine ⟨by norm_num [List.getLastD], by rw [h3], ?_⟩
  rw [map_grayscale_to_phase]
  rw [h3]
  norm_num [List.getLastD]

set_option maxHeartbeats 2000000 in
/-- Claim C6 amended: the synthetic final point `(1023, 2π)` is appended if
and only if the last grayscale of the *processed* (truncated and masked)
sweep differs from `1023`; otherwise the returned arrays are exactly the
processed sweep with no extra point. -/
theorem C6_amended_append_iff (gs ints : List ℝ) (k : ℕ) :
    ((extractStages k gs ints).1.getLastD 0 ≠ 1023 →
      (map_grayscale_to_phase gs ints k).1 =
          (extractStages k gs ints).1 ++ [1023] ∧
      (map_grayscale_to_phase gs ints k).2 =
        stitchPhases (branchPhases (extractStages k gs ints).2.1
          (extractStages k gs ints).2.2) ++ [2 * Real.pi]) ∧
    ((extractStages k gs ints).1.getLastD 0 = 1023 →
      (map_grayscale_to_phase gs ints k).1 = (extractStages k gs ints).1 ∧
      (map_grayscale_to_phase gs ints k).2 =
        stitchPhases (branchPhases (extractStages k gs ints).2.1
          (extractStages k gs ints).2.2)) := by
  unfold map_grayscale_to_phase
  split
  next hne => exact ⟨fun _ => ⟨rfl, rfl⟩, fun he => absurd he hne⟩
  next hne => exact ⟨fun h => absurd (not_not.1 hne) h, fun _ => ⟨rfl, rfl⟩⟩

/-- Witness for the amended C6 on the sweep of `extractStages_eval_c3c6`:
the processed sweep ends at `600 ≠ 1023`, so the point is appended. -/
theorem C6_witness :
    (extractStages 1 ([0, 200, 400, 600, 800, 1023] : List ℝ)
        [1/4, 3/4, 1, 1/2, 1/4, 5/8]).1.getLastD 0 ≠ 1023 ∧
    (map_grayscale_to_phase [0, 200, 400, 600, 800, 1023]
        [1/4, 3/4, 1, 1/2, 1/4, 5/8] 1).1 =
      (extractStages 1 ([0, 200, 400, 600, 800, 1023] : List ℝ)
        [1/4, 3/4, 1, 1/2, 1/4, 5/8]).1 ++ [1023] := by
  obtain ⟨-, -, h3⟩ := extractStages_eval_c3c6
  have h : (extractStages 1 ([0, 200, 400, 600, 800, 1023] : List ℝ)
      [1/4, 3/4, 1, 1/2, 1/4, 5/8]).1.getLastD 0 ≠ 1023 := by
    rw [h3]
    norm_num [List.getLastD]
  exact ⟨h, ((C6_amended_append_iff [0, 200, 400, 600, 800, 1023]
    [1/4, 3/4, 1, 1/2, 1/4, 5/8] 1).1 h).1⟩

/-! ## Claim C8 -/

/-- Claim C8: `check_error` returns normally iff the status code is `SLM_OK`;
for every non-OK code it raises an error whose message ends with the
description from the `ERROR_MSGs` table when the code is a key, and the
generic unknown-code message otherwise. -/
theorem C8_check_error_spec (c : ℤ) (h : String) :
    (check_error c h = .ok () ↔ c = SLM_OK) ∧
    (∀ d : String, c ≠ SLM_OK → ERROR_MSGs.lookup c = some d →
      ∃ pre : String, check_error c h = .error (pre ++ d)) ∧
    (c ≠ SLM_OK → ERROR_MSGs.lookup c = none →
      check_error c h = .error (h ++ " SLM returned unknown error code.")) := by
  refine ⟨?_, ?_, ?_⟩
  · rw [check_error]
    by_cases hc : c = SLM_OK
    · simp [hc]
    · rw [if_neg hc]
      refine iff_of_false ?_ hc
      cases ERROR_MSGs.lookup c <;> simp
  · intro d hc hd
    rw [check_error, if_neg hc, hd]
    exact ⟨_, rfl⟩
  · intro hc hd
    rw [check_error, if_neg hc, hd]

/-- Witness for C8 at code `2` (`SLM_BS`, "SLM is busy") and at the unknown
code `42`. -/
theorem C8_witness :
    ((2 : ℤ) ≠ SLM_OK ∧ ERROR_MSGs.lookup (2 : ℤ) = some "SLM is busy" ∧
      ∃ pre : String, check_error 2 "" = .error (pre ++ "SLM is busy")) ∧
    ((42 : ℤ) ≠ SLM_OK ∧ ERROR_MSGs.lookup (42 : ℤ) = none ∧
      check_error 42 "" = .error (" SLM returned unknown error code.")) := by
  constructor
  · refine ⟨by decide, by rfl, ?_⟩
    exact (C8_check_error_spec 2 "").2.1 "SLM is busy" (by decide) (by rfl)
  · refine ⟨by decide, by rfl, ?_⟩
    have := (C8_check_error_spec 42 "").2.2 (by decide) (by rfl)
    simpa using this

/-! ## Claim C9 -/

/-- Claim C9: in the `Measure` action, for every value of the Calibration
mode parameter the binary-grating pattern piece is selected and the
uniform-pattern piece never is, because line 198 tests the truthiness of
the constant `MODE_EFF` rather than comparing it with the mode value. -/
theorem C9_measure_always_targets_grating (mode : String) :
    measureTargetPiece mode = TargetPiece.grating ∧
      measureTargetPiece mode ≠ TargetPiece.uniform ∧
      measureTargetPiece MODE_GRAY = measureTargetPiece MODE_EFF := by
  refine ⟨rfl, ?_, rfl⟩
  intro h
  exact absurd h (by simp [measureTargetPiece, pyTruthyString, MODE_EFF])

/-! ## Claim C10 -/

/-- Claim C10: after a call to `map_grayscale_to_phase` the caller's
`intensities` array has been divided in place by its maximum when that
maximum exceeds 1 (and is untouched otherwise), while the caller's
`grayscales` array is unchanged in every case. -/
theorem C10_frame_effect (st : CallerArrays) (k : ℕ) :
    ((map_grayscale_to_phase_withStore st k).2.grayscales = st.grayscales) ∧
    (1 < npMax st.intensities →
      (map_grayscale_to_phase_withStore st k).2.intensities =
        st.intensities.map (· / npMax st.intensities)) ∧
    (¬ 1 < npMax st.intensities →
      (map_grayscale_to_phase_withStore st k).2.intensities =
        st.intensities) := by
  refine ⟨rfl, ?_, ?_⟩
  · intro hmax
    simp [map_grayscale_to_phase_withStore, normalizeIntensities, hmax]
  · intro hmax
    simp [map_grayscale_to_phase_withStore, normalizeIntensities, hmax]

/-- Witness for C10 with `intensities = [1, 2, 4]` (maximum `4 > 1`). -/
theorem C10_witness :
    (1 < npMax ([1, 2, 4] : List ℝ)) ∧
    (map_grayscale_to_phase_withStore ⟨[7, 8], [1, 2, 4]⟩ 1).2.intensities =
      ([1, 2, 4] : List ℝ).map (· / npMax ([1, 2, 4] : List ℝ)) := by
  have hmax : (1 : ℝ) < npMax ([1, 2, 4] : List ℝ) := by
    norm_num [npMax, List.foldl, max_def]
  exact ⟨hmax, (C10_frame_effect ⟨[7, 8], [1, 2, 4]⟩ 1).2.1 hmax⟩

/-! ## The extractor on a valid sweep: truncated arrays, minimum, masking -/

section ValidSweepDev3

variable {x y : List ℝ} {k m p c : ℕ}

theorem vs_argmin_trunc (h : ValidSweep x y k m p c) :
    npArgmin (y.take (c - 1)) = p := by
  have hb := vs_bounds h
  have hlen : (y.take (c - 1)).length = c - 1 := by
    rw [List.length_take]
    omega
  refine npArgmin_eq (by omega) ?_
  intro i hi hip
  rw [hlen] at hi
  rw [getD_take_of_lt _ (by omega) (by omega) 0,
    getD_take_of_lt _ (by omega) (by omega) 0]
  rcases le_or_lt i m with him | him
  · -- before or at the peak: y i is at least y 0, which exceeds y p
    have h1 : y.getD p 0 < y.getD 0 0 := h.hbelow p le_rfl (by omega)
    have h2 : y.getD 0 0 ≤ y.getD i 0 := vs_rise_le h (Nat.zero_le i) him
    linarith
  · rcases lt_or_le i p with hip' | hip'
    · exact vs_fall_lt h (by omega) hip' le_rfl
    · exact vs_rise2_lt h le_rfl (by omega) (by omega)

theorem vs_extract (h : ValidSweep x y k m p c) :
    extractStages k x y =
      ((x.take (c - 1)).take (p - k) ++
         (x.take (c - 1)).drop (min (p + k + 1) (c - 1)),
       (y.take (c - 1)).take (p - k) ++
         (y.take (c - 1)).drop (min (p + k + 1) (c - 1)),
       ((slopesOf y).take (c - 1)).take (p - k) ++
         ((slopesOf y).take (c - 1)).drop (min (p + k + 1) (c - 1))) := by
  have hb := vs_bounds h
  have hxl : (x.take (c - 1)).length = c - 1 := by
    rw [List.length_take]
    have := h.hlen
    omega
  have hyl : (y.take (c - 1)).length = c - 1 := by
    rw [List.length_take]; omega
  have hsl : ((slopesOf y).take (c - 1)).length = c - 1 := by
    rw [List.length_take, slopesOf_length]; omega
  rw [extractStages, vs_normalize h, vs_truncate h]
  dsimp only
  rw [maskMinimum, vs_argmin_trunc h]
  rw [pySliceDelete_argmin_window _ p k (by omega) (by omega),
    pySliceDelete_argmin_window _ p k (by omega) (by omega),
    pySliceDelete_argmin_window _ p k (by omega) (by omega)]
  rw [hxl, hyl, hsl]

theorem vs_ym_eq (h : ValidSweep x y k m p c) :
    (extractStages k x y).2.1 =
      (List.range' 0 (p - k)).map (fun i => y.getD i 0) ++
        (List.range' (min (p + k + 1) (c - 1))
          ((c - 1) - min (p + k + 1) (c - 1))).map (fun i => y.getD i 0) := by
  have hb := vs_bounds h
  have hyl : (y.take (c - 1)).length = c - 1 := by
    rw [List.length_take]; omega
  rw [vs_extract h]
  show (y.take (c - 1)).take (p - k) ++
      (y.take (c - 1)).drop (min (p + k + 1) (c - 1)) = _
  rw [take_eq_map_range' (y.take (c - 1)) 0 (by omega),
    drop_eq_map_range' (y.take (c - 1)) 0 (min (p + k + 1) (c - 1)), hyl]
  congr 1
  · refine List.map_congr_left ?_
    intro i hi
    rw [List.mem_range'_1] at hi
    exact getD_take_of_lt _ (by omega) (by omega) 0
  · refine List.map_congr_left ?_
    intro i hi
    rw [List.mem_range'_1] at hi
    have hq : p + 1 ≤ min (p + k + 1) (c - 1) := by
      refine le_min (by omega) (by omega)
    exact getD_take_of_lt _ (by omega) (by omega) 0

theorem vs_sm_eq (h : ValidSweep x y k m p c) :
    (extractStages k x y).2.2 =
      (List.range' 0 (p - k)).map (fun i => (slopesOf y).getD i 0) ++
        (List.range' (min (p + k + 1) (c - 1))
          ((c - 1) - min (p + k + 1) (c - 1))).map
            (fun i => (slopesOf y).getD i 0) := by
  have hb := vs_bounds h
  have hsl : ((slopesOf y).take (c - 1)).length = c - 1 := by
    rw [List.length_take, slopesOf_length]; omega
  rw [vs_extract h]
  show ((slopesOf y).take (c - 1)).take (p - k) ++
      ((slopesOf y).take (c - 1)).drop (min (p + k + 1) (c - 1)) = _
  rw [take_eq_map_range' ((slopesOf y).take (c - 1)) 0 (by omega),
    drop_eq_map_range' ((slopesOf y).take (c - 1)) 0
      (min (p + k + 1) (c - 1)), hsl]
  congr 1
  · refine List.map_congr_left ?_
    intro i hi
    rw [List.mem_range'_1] at hi
    exact getD_take_of_lt _ (by omega) (by rw [slopesOf_length]; omega) 0
  · refine List.map_congr_left ?_
    intro i hi
    rw [List.mem_range'_1] at hi
    exact getD_take_of_lt _ (by omega) (by rw [slopesOf_length]; omega) 0

theorem vs_branch (h : ValidSweep x y k m p c) :
    branchPhases (extractStages k x y).2.1 (extractStages k x y).2.2 =
      (List.range' 0 m).map
          (fun i => Real.pi - Real.arccos (Real.sqrt (y.getD i 0))) ++
        (List.range' m (p - k - m)).map
          (fun i => Real.arccos (Real.sqrt (y.getD i 0))) ++
        (List.range' (min (p + k + 1) (c - 1))
            ((c - 1) - min (p + k + 1) (c - 1))).map
          (fun i => Real.pi - Real.arccos (Real.sqrt (y.getD i 0))) := by
  have hb := vs_bounds h
  rw [branchPhases, vs_ym_eq h, vs_sm_eq h]
  rw [List.zipWith_append _ _ _ _ _ (by simp)]
  rw [zipWith_map_same, zipWith_map_same]
  have hmk : m + (p - k - m) = p - k := by omega
  have hsplit : List.range' 0 (p - k) =
      List.range' 0 m ++ List.range' m (p - k - m) := by
    have h2 := List.range'_append_1 0 m (p - k - m)
    rw [Nat.zero_add] at h2
    rw [show p - k - m + m = p - k by omega] at h2
    exact h2.symm
  rw [hsplit, List.map_append]
  congr 1
  congr 1
  · refine List.map_congr_left ?_
    intro i hi
    rw [List.mem_range'_1] at hi
    rw [vs_slope_rise h (by omega)]
    rw [if_pos (by norm_num)]
  · refine List.map_congr_left ?_
    intro i hi
    rw [List.mem_range'_1] at hi
    rw [vs_slope_fall h (by omega) (by omega)]
    rw [if_neg (by norm_num)]
  · refine List.map_congr_left ?_
    intro i hi
    rw [List.mem_range'_1] at hi
    have hq : p + 1 ≤ min (p + k + 1) (c - 1) := le_min (by omega) (by omega)
    have hiN : i < c - 1 := by
      have := hi.2
      have hqle : min (p + k + 1) (c - 1) ≤ c - 1 := min_le_right _ _
      omega
    rw [vs_slope_rise2 h (by omega) (by omega)]
    rw [if_pos (by norm_num)]

theorem vs_zeroIdx (h : ValidSweep x y k m p c) :
    zeroIdx (branchPhases (extractStages k x y).2.1
      (extractStages k x y).2.2) = m := by
  have hb := vs_bounds h
  rw [vs_branch h, zeroIdx]
  rw [List.map_append, List.map_append, List.map_map, List.map_map,
    List.map_map]
  have hl1 : ((List.range' 0 m).map
      ((fun v => |v - 0|) ∘
        fun i => Real.pi - Real.arccos (Real.sqrt (y.getD i 0)))).length = m := by
    simp
  have hl2 : ((List.range' m (p - k - m)).map
      ((fun v => |v - 0|) ∘
        fun i => Real.arccos (Real.sqrt (y.getD i 0)))).length = p - k - m := by
    simp
  -- handy facts about the phase values
  have hY0 : 0 ≤ y.getD 0 0 := (h.h01 0 (by omega)).1
  have hYm1 : y.getD m 0 ≤ 1 := (h.h01 m (by omega)).2
  have hYmpos : 0 < y.getD m 0 :=
    lt_of_le_of_lt hY0 (vs_rise_lt h (by omega) le_rfl)
  have hAm : Real.arccos (Real.sqrt (y.getD m 0)) < Real.pi / 2 :=
    asq_lt_pi_div_two hYmpos
  refine npArgmin_eq ?_ ?_
  · rw [List.length_append, List.length_append, hl1, hl2]
    simp only [List.length_map, List.length_range']
    omega
  · intro j hj hjm
    rw [List.length_append, List.length_append, hl1, hl2] at hj
    simp only [List.length_map, List.length_range'] at hj
    -- the value at position m is |arccos (sqrt (y m))| = arccos (sqrt (y m))
    have hvm : (((List.range' 0 m).map
        ((fun v => |v - 0|) ∘
          fun i => Real.pi - Real.arccos (Real.sqrt (y.getD i 0))) ++
        (List.range' m (p - k - m)).map
        ((fun v => |v - 0|) ∘
          fun i => Real.arccos (Real.sqrt (y.getD i 0)))) ++
        (List.range' (min (p + k + 1) (c - 1))
          ((c - 1) - min (p + k + 1) (c - 1))).map
        ((fun v => |v - 0|) ∘
          fun i => Real.pi - Real.arccos (Real.sqrt (y.getD i 0)))).getD m 0 =
        Real.arccos (Real.sqrt (y.getD m 0)) := by
      rw [List.getD_append _ _ 0 m (by rw [List.length_append, hl1, hl2]; omega)]
      rw [List.getD_append_right _ _ 0 m (by rw [hl1]; try omega)]
      rw [hl1, Nat.sub_self]
      rw [getD_map_range' _ _ _ (by omega) 0]
      simp only [Function.comp, Nat.add_zero, sub_zero]
      exact abs_of_nonneg (asq_nonneg _)
    rw [hvm]
    rcases lt_or_le j m with hjlt | hjge
    · -- position in the pre-peak region: value is pi - arccos ≥ pi/2
      rw [List.getD_append _ _ 0 j (by rw [List.length_append, hl1, hl2]; omega)]
      rw [List.getD_append _ _ 0 j (by rw [hl1]; omega)]
      rw [getD_map_range' _ _ _ (by omega) 0]
      simp only [Function.comp, Nat.zero_add, sub_zero]
      have h1 : Real.arccos (Real.sqrt (y.getD j 0)) ≤ Real.pi / 2 :=
        asq_le_pi_div_two _
      have h2 : (0 : ℝ) < Real.pi := Real.pi_pos
      rw [abs_of_nonneg (by linarith)]
      linarith
    · rcases lt_or_le j (p - k) with hjpk | hjpk
      · -- falling region: arccos (sqrt (y j)) with y j < y m
        rw [List.getD_append _ _ 0 j
          (by rw [List.length_append, hl1, hl2]; omega)]
        rw [List.getD_append_right _ _ 0 j (by rw [hl1]; omega)]
        rw [hl1]
        rw [getD_map_range' _ _ _ (by omega) 0]
        simp only [Function.comp, sub_zero]
        have hidx : m + (j - m) = j := by omega
        rw [hidx]
        have hYj0 : 0 ≤ y.getD j 0 := (h.h01 j (by omega)).1
        have hYjm : y.getD j 0 < y.getD m 0 :=
          vs_fall_lt h le_rfl (by omega) (by omega)
        rw [abs_of_nonneg (asq_nonneg _)]
        exact asq_lt_asq hYj0 hYjm hYm1
      · -- post-minimum region: value is pi - arccos ≥ pi/2 again
        rw [List.getD_append_right _ _ 0 j
          (by rw [List.length_append, hl1, hl2]; omega)]
        rw [List.length_append, hl1, hl2]
        rw [getD_map_range' _ _ _ (by omega) 0]
        simp only [Function.comp, sub_zero]
        have h1 : Real.arccos (Real.sqrt (y.getD
          (min (p + k + 1) (c - 1) + (j - (m + (p - k - m)))) 0)) ≤
            Real.pi / 2 := asq_le_pi_div_two _
        have h2 : (0 : ℝ) < Real.pi := Real.pi_pos
        rw [abs_of_nonneg (by linarith)]
        linarith

end ValidSweepDev3

section ValidSweepDev4

variable {x y : List ℝ} {k m p c : ℕ}

theorem vs_unwrap (h : ValidSweep x y k m p c) :
    unwrapPhases (branchPhases (extractStages k x y).2.1
      (extractStages k x y).2.2) =
      (List.range' 0 m).map
          (fun i => -Real.arccos (Real.sqrt (y.getD i 0))) ++
        ((List.range' m (p - k - m)).map
          (fun i => Real.arccos (Real.sqrt (y.getD i 0))) ++
         (List.range' (min (p + k + 1) (c - 1))
            ((c - 1) - min (p + k + 1) (c - 1))).map
          (fun i => Real.pi - Real.arccos (Real.sqrt (y.getD i 0)))) := by
  rw [unwrapPhases, vs_zeroIdx h, vs_branch h, List.append_assoc]
  rw [List.take_left' (by simp), List.drop_left' (by simp)]
  congr 1
  rw [List.map_map]
  refine List.map_congr_left ?_
  intro i _
  simp only [Function.comp]
  ring

theorem vs_unwrap_head (h : ValidSweep x y k m p c) :
    (unwrapPhases (branchPhases (extractStages k x y).2.1
      (extractStages k x y).2.2)).headD 0 =
      -Real.arccos (Real.sqrt (y.getD 0 0)) := by
  have hb := vs_bounds h
  rw [vs_unwrap h, headD_eq_getD,
    List.getD_append _ _ 0 0 (by simp; omega),
    getD_map_range' _ _ _ (by omega) 0]

theorem vs_stitch (h : ValidSweep x y k m p c) :
    stitchPhases (branchPhases (extractStages k x y).2.1
      (extractStages k x y).2.2) = expectedPhases y k m p c := by
  rw [stitchPhases, vs_unwrap_head h, vs_unwrap h, expectedPhases]
  simp only [List.map_append, List.map_map]
  rw [← List.append_assoc]
  congr 1
  congr 1
  · refine List.map_congr_left ?_
    intro i _
    simp only [Function.comp]
    ring
  · refine List.map_congr_left ?_
    intro i _
    simp only [Function.comp]
    ring
  · refine List.map_congr_left ?_
    intro i _
    simp only [Function.comp]
    ring

theorem expectedPhases_chain (h : ValidSweep x y k m p c) :
    (expectedPhases y k m p c).Chain' (· < ·) := by
  have hb := vs_bounds h
  rw [expectedPhases]
  rw [List.chain'_append]
  refine ⟨?_, ?_, ?_⟩
  · rw [List.chain'_append]
    refine ⟨?_, ?_, ?_⟩
    · -- rising branch: phases strictly increase
      refine chain'_map_range' _ 0 m ?_
      intro i hi0 hi1
      have h1 : y.getD i 0 < y.getD (i + 1) 0 := h.hrise i (by omega)
      have h0 : 0 ≤ y.getD i 0 := (h.h01 i (by omega)).1
      have h2 : y.getD (i + 1) 0 ≤ 1 := (h.h01 (i + 1) (by omega)).2
      have := asq_lt_asq h0 h1 h2
      linarith
    · -- falling branch: phases strictly increase
      refine chain'_map_range' _ m (p - k - m) ?_
      intro i hi0 hi1
      have h1 : y.getD (i + 1) 0 < y.getD i 0 := h.hfall i hi0 (by omega)
      have h0 : 0 ≤ y.getD (i + 1) 0 := (h.h01 (i + 1) (by omega)).1
      have h2 : y.getD i 0 ≤ 1 := (h.h01 i (by omega)).2
      have := asq_lt_asq h0 h1 h2
      linarith
    · -- peak link: -arccos(y (m-1)) < arccos(y m) after rebasing
      intro a ha b hb'
      rw [getLast?_map_range' _ _ h.hm] at ha
      rw [head?_map_range' _ _ (by omega)] at hb'
      obtain rfl := Option.some_injective _ ha.symm
      obtain rfl := Option.some_injective _ hb'.symm
      have hi : 0 + m - 1 = m - 1 := by omega
      rw [hi]
      have h0 : 0 ≤ y.getD (m - 1) 0 := (h.h01 (m - 1) (by omega)).1
      have h1 : y.getD (m - 1) 0 < y.getD m 0 :=
        vs_rise_lt h (by omega) le_rfl
      have h2 : y.getD m 0 ≤ 1 := (h.h01 m (by omega)).2
      have hpos : 0 < Real.arccos (Real.sqrt (y.getD (m - 1) 0)) :=
        asq_pos h0 (lt_of_lt_of_le h1 h2)
      have hnn : 0 ≤ Real.arccos (Real.sqrt (y.getD m 0)) := asq_nonneg _
      linarith
  · -- post-minimum branch: phases strictly increase
    refine chain'_map_range' _ _ _ ?_
    intro i hi0 hi1
    have hq : p + 1 ≤ min (p + k + 1) (c - 1) := le_min (by omega) (by omega)
    have hic : i + 1 < c - 1 := by
      have hqle : min (p + k + 1) (c - 1) ≤ c - 1 := min_le_right _ _
      omega
    have h1 : y.getD i 0 < y.getD (i + 1) 0 := h.hrise2 i (by omega) (by omega)
    have h0 : 0 ≤ y.getD i 0 := (h.h01 i (by omega)).1
    have h2 : y.getD (i + 1) 0 ≤ 1 := (h.h01 (i + 1) (by omega)).2
    have := asq_lt_asq h0 h1 h2
    linarith
  · -- link from the falling branch into the post-minimum branch
    intro a ha b hb'
    by_cases hP3 : (c - 1) - min (p + k + 1) (c - 1) = 0
    · rw [hP3] at hb'
      simp at hb'
    · rw [head?_map_range' _ _ (by omega)] at hb'
      obtain rfl := Option.some_injective _ hb'.symm
      rw [List.getLast?_append] at ha
      rw [getLast?_map_range' _ _ (show 0 < p - k - m by omega)] at ha
      simp only [Option.or_some] at ha
      obtain rfl := Option.some_injective _ ha.symm
      have hi : m + (p - k - m) - 1 = p - k - 1 := by omega
      rw [hi]
      -- arccos at the last falling sample is < pi/2, at the first
      -- post-minimum sample it is ≤ pi/2
      have h0p : 0 ≤ y.getD p 0 := (h.h01 p (by omega)).1
      have hfall1 : y.getD p 0 < y.getD (p - k - 1) 0 :=
        vs_fall_lt h (by omega) (by omega) le_rfl
      have hpos : 0 < y.getD (p - k - 1) 0 := lt_of_le_of_lt h0p hfall1
      have hlt : Real.arccos (Real.sqrt (y.getD (p - k - 1) 0)) <
          Real.pi / 2 := asq_lt_pi_div_two hpos
      have hle : Real.arccos (Real.sqrt (y.getD
          (min (p + k + 1) (c - 1)) 0)) ≤ Real.pi / 2 :=
        asq_le_pi_div_two _
      linarith

theorem expectedPhases_head (h : ValidSweep x y k m p c) :
    (expectedPhases y k m p c).head? = some 0 := by
  have hb := vs_bounds h
  rw [expectedPhases, List.append_assoc, List.head?_append,
    head?_map_range' _ _ h.hm]
  have h0 : (Real.arccos (Real.sqrt (y.getD 0 0)) -
      Real.arccos (Real.sqrt (y.getD 0 0))) * 2 = 0 := by ring
  rw [h0]
  rfl

theorem expectedPhases_ne_nil (h : ValidSweep x y k m p c) :
    expectedPhases y k m p c ≠ [] := by
  have hb := vs_bounds h
  rw [expectedPhases]
  intro hcon
  have := congrArg List.length hcon
  simp at this
  omega

theorem expectedPhases_last_lt (h : ValidSweep x y k m p c) :
    ∀ v ∈ (expectedPhases y k m p c).getLast?, v < 2 * Real.pi := by
  have hb := vs_bounds h
  have hpi := Real.pi_pos
  intro v hv
  rw [expectedPhases, List.getLast?_append] at hv
  by_cases hP3 : (c - 1) - min (p + k + 1) (c - 1) = 0
  · -- no post-minimum survivors: the last value sits on the falling branch
    rw [hP3] at hv
    rw [List.range'_zero, List.map_nil, List.getLast?_nil, Option.none_or] at hv
    rw [List.getLast?_append,
      getLast?_map_range' _ _ (show 0 < p - k - m by omega),
      Option.or_some, Option.mem_some_iff] at hv
    subst hv
    have hi : m + (p - k - m) - 1 = p - k - 1 := by omega
    rw [hi]
    have h0p : 0 ≤ y.getD p 0 := (h.h01 p (by omega)).1
    have hfall1 : y.getD p 0 < y.getD (p - k - 1) 0 :=
      vs_fall_lt h (by omega) (by omega) le_rfl
    have hlt : Real.arccos (Real.sqrt (y.getD (p - k - 1) 0)) <
        Real.pi / 2 := asq_lt_pi_div_two (lt_of_le_of_lt h0p hfall1)
    have hle : Real.arccos (Real.sqrt (y.getD 0 0)) ≤ Real.pi / 2 :=
      asq_le_pi_div_two _
    linarith
  · rw [getLast?_map_range' _ _ (by omega), Option.or_some,
      Option.mem_some_iff] at hv
    subst hv
    have hqle : min (p + k + 1) (c - 1) ≤ c - 1 := min_le_right _ _
    have hi : min (p + k + 1) (c - 1) +
        ((c - 1) - min (p + k + 1) (c - 1)) - 1 = c - 2 := by omega
    rw [hi]
    have h0 : 0 ≤ y.getD (c - 2) 0 := (h.h01 (c - 2) (by omega)).1
    have h1 : y.getD (c - 2) 0 < y.getD 0 0 :=
      h.hbelow (c - 2) (by omega) (by omega)
    have h2 : y.getD 0 0 ≤ 1 := (h.h01 0 (by omega)).2
    have := asq_lt_asq h0 h1 h2
    linarith

end ValidSweepDev4

/-! ## Lengths through the pipeline -/

theorem pySliceDelete_length_congr {α β : Type} (l₁ : List α) (l₂ : List β)
    (h : l₁.length = l₂.length) (s t : ℤ) :
    (pySliceDelete l₁ s t).length = (pySliceDelete l₂ s t).length := by
  simp only [pySliceDelete]
  rw [h]
  by_cases hc : (if s < 0 then max ((l₂.length : ℤ) + s) 0
      else min s l₂.length) <
      (if t < 0 then max ((l₂.length : ℤ) + t) 0 else min t l₂.length)
  · rw [if_pos hc, if_pos hc]
    simp [h]
  · rw [if_neg hc, if_neg hc]
    exact h

theorem normalizeIntensities_length (y : List K) :
    (normalizeIntensities y).length = y.length := by
  rw [normalizeIntensities]
  split <;> simp

theorem zeroIdx_le_length (ph : List ℝ) : zeroIdx ph ≤ ph.length := by
  rw [zeroIdx, npArgmin]
  have := findIdxTrue_le_length
    ((ph.map fun v => |v - 0|).map fun v =>
      decide (v = npMin (ph.map fun w => |w - 0|)))
  simpa using this

theorem stitchPhases_length (ph : List ℝ) :
    (stitchPhases ph).length = ph.length := by
  have hz := zeroIdx_le_length ph
  rw [stitchPhases, unwrapPhases]
  simp only [List.length_map, List.length_append, List.length_take,
    List.length_drop]
  omega

theorem branchPhases_length (ys ss : List ℝ) :
    (branchPhases ys ss).length = min ys.length ss.length := by
  simp [branchPhases]

theorem extractStages_length_eq {gs ints : List K} (k : ℕ)
    (hlen : gs.length = ints.length) :
    (extractStages k gs ints).1.length =
        (extractStages k gs ints).2.1.length ∧
      (extractStages k gs ints).2.2.length =
        (extractStages k gs ints).2.1.length := by
  have hy1 : (normalizeIntensities ints).length = ints.length :=
    normalizeIntensities_length ints
  have hsl : (slopesOf (normalizeIntensities ints)).length =
      (normalizeIntensities ints).length := slopesOf_length _
  have ht1 : (truncateSweep gs (normalizeIntensities ints)
        (slopesOf (normalizeIntensities ints))).1.length =
      (truncateSweep gs (normalizeIntensities ints)
        (slopesOf (normalizeIntensities ints))).2.1.length := by
    rw [truncateSweep]
    split
    · dsimp only
      simp only [List.length_take]
      omega
    · dsimp only
      omega
  have ht2 : (truncateSweep gs (normalizeIntensities ints)
        (slopesOf (normalizeIntensities ints))).2.2.length =
      (truncateSweep gs (normalizeIntensities ints)
        (slopesOf (normalizeIntensities ints))).2.1.length := by
    rw [truncateSweep]
    split
    · dsimp only
      simp only [List.length_take]
      omega
    · dsimp only
      omega
  rw [extractStages, maskMinimum]
  exact ⟨pySliceDelete_length_congr _ _ ht1 _ _,
    pySliceDelete_length_congr _ _ ht2 _ _⟩

set_option maxHeartbeats 2000000 in
theorem map_grayscale_to_phase_length_eq (gs ints : List ℝ) (k : ℕ)
    (hlen : gs.length = ints.length) :
    (map_grayscale_to_phase gs ints k).1.length =
      (map_grayscale_to_phase gs ints k).2.length := by
  obtain ⟨h1, h2⟩ := extractStages_length_eq k hlen
  have hb : (stitchPhases (branchPhases (extractStages k gs ints).2.1
      (extractStages k gs ints).2.2)).length =
      (extractStages k gs ints).1.length := by
    rw [stitchPhases_length, branchPhases_length, h2, min_self, h1]
  unfold map_grayscale_to_phase
  split
  · simp only [List.length_append, List.length_cons, List.length_nil, hb]
  · exact hb.symm

section ValidSweepDev5

variable {x y : List ℝ} {k m p c : ℕ}

set_option maxHeartbeats 2000000 in
theorem vs_out_phases (h : ValidSweep x y k m p c) :
    (map_grayscale_to_phase x y k).2 = expectedPhases y k m p c ∨
      (map_grayscale_to_phase x y k).2 =
        expectedPhases y k m p c ++ [2 * Real.pi] := by
  unfold map_grayscale_to_phase
  split
  · right
    dsimp only
    rw [vs_stitch h]
  · left
    dsimp only
    rw [vs_stitch h]

theorem vs_out_chain_lt (h : ValidSweep x y k m p c) :
    (map_grayscale_to_phase x y k).2.Chain' (· < ·) := by
  rcases vs_out_phases h with ho | ho <;> rw [ho]
  · exact expectedPhases_chain h
  · rw [List.chain'_append]
    refine ⟨expectedPhases_chain h, List.chain'_singleton _, ?_⟩
    intro a ha b hb'
    simp only [List.head?_cons, Option.mem_some_iff] at hb'
    subst hb'
    exact expectedPhases_last_lt h a ha

theorem vs_out_head (h : ValidSweep x y k m p c) :
    (map_grayscale_to_phase x y k).2.head? = some 0 := by
  rcases vs_out_phases h with ho | ho <;> rw [ho]
  · exact expectedPhases_head h
  · rw [List.head?_append, expectedPhases_head h]
    rfl

end ValidSweepDev5

/-! ## Claims C1 and C7 -/

/-- Claim C1: for every valid single-period sweep, the phase array returned
by `map_grayscale_to_phase` is non-decreasing and its first element is
`0`. -/
theorem C1_monotone_phases_of_valid_sweep (x y : List ℝ) (k m p c : ℕ)
    (h : ValidSweep x y k m p c) :
    (map_grayscale_to_phase x y k).2.Chain' (· ≤ ·) ∧
      (map_grayscale_to_phase x y k).2.head? = some 0 :=
  ⟨(vs_out_chain_lt h).imp (fun _ _ => le_of_lt), vs_out_head h⟩

/-- A concrete valid single-period sweep: rise `1/4 → 1`, fall
`1 → 5/8 → 1/8`, rise back `1/8 → 3/16`, crossing at `1/2 ≥ 1/4`
(`k = 1`, peak `m = 1`, minimum `p = 3`, period end `c = 5`). -/
theorem validSweep_example :
    ValidSweep [0, 100, 300, 500, 700, 900]
      [1/4, 1, 5/8, 1/8, 3/16, 1/2] 1 1 3 5 := by
  refine ⟨?_, ?_, ?_, ?_, ?_, ?_, ?_, ?_, ?_, ?_, ?_⟩
  · norm_num
  · norm_num
  · norm_num
  · norm_num
  · norm_num
  · intro i hi
    simp only [List.length_cons, List.length_nil] at hi
    interval_cases i <;>
      norm_num [List.getD_cons_zero, List.getD_cons_succ]
  · intro i hi
    interval_cases i
    norm_num [List.getD_cons_zero, List.getD_cons_succ]
  · intro i h1 h2
    interval_cases i <;>
      norm_num [List.getD_cons_zero, List.getD_cons_succ]
  · intro i h1 h2
    have h3 : i < 4 := by omega
    interval_cases i
    norm_num [List.getD_cons_zero, List.getD_cons_succ]
  · intro i h1 h2
    interval_cases i <;>
      norm_num [List.getD_cons_zero, List.getD_cons_succ]
  · norm_num [List.getD_cons_zero, List.getD_cons_succ]

/-- Witness for C1 on the sweep of `validSweep_example`. -/
theorem C1_witness :
    ValidSweep [0, 100, 300, 500, 700, 900]
        [1/4, 1, 5/8, 1/8, 3/16, 1/2] 1 1 3 5 ∧
      (map_grayscale_to_phase [0, 100, 300, 500, 700, 900]
        [1/4, 1, 5/8, 1/8, 3/16, 1/2] 1).2.Chain' (· ≤ ·) ∧
      (map_grayscale_to_phase [0, 100, 300, 500, 700, 900]
        [1/4, 1, 5/8, 1/8, 3/16, 1/2] 1).2.head? = some 0 :=
  ⟨validSweep_example,
    (C1_monotone_phases_of_valid_sweep _ _ 1 1 3 5 validSweep_example).1,
    (C1_monotone_phases_of_valid_sweep _ _ 1 1 3 5 validSweep_example).2⟩

/-- Claim C7: for every calibration curve produced by
`map_grayscale_to_phase` on a valid single-period sweep, interpolating in
the inverse direction (`x` = phases, `y` = grayscales) at targets equal to
the phase knots returns the grayscale knots unchanged. -/
theorem C7_roundtrip_on_calibration_curve (x y : List ℝ) (k m p c : ℕ)
    (h : ValidSweep x y k m p c) :
    linear_interpolation (map_grayscale_to_phase x y k).2
      (map_grayscale_to_phase x y k).2 (map_grayscale_to_phase x y k).1 =
      .ok (map_grayscale_to_phase x y k).1 := by
  have hpw : (map_grayscale_to_phase x y k).2.Pairwise (· < ·) :=
    List.chain'_iff_pairwise.1 (vs_out_chain_lt h)
  have hne : (map_grayscale_to_phase x y k).2 ≠ [] := by
    intro hc
    have hh := vs_out_head h
    rw [hc] at hh
    simp at hh
  exact linear_interpolation_self _ _ hpw hne
    (map_grayscale_to_phase_length_eq x y k h.hlen)

/-- Witness for C7 on the sweep of `validSweep_example`. -/
theorem C7_witness :
    ValidSweep [0, 100, 300, 500, 700, 900]
        [1/4, 1, 5/8, 1/8, 3/16, 1/2] 1 1 3 5 ∧
      linear_interpolation
        (map_grayscale_to_phase [0, 100, 300, 500, 700, 900]
          [1/4, 1, 5/8, 1/8, 3/16, 1/2] 1).2
        (map_grayscale_to_phase [0, 100, 300, 500, 700, 900]
          [1/4, 1, 5/8, 1/8, 3/16, 1/2] 1).2
        (map_grayscale_to_phase [0, 100, 300, 500, 700, 900]
          [1/4, 1, 5/8, 1/8, 3/16, 1/2] 1).1 =
      .ok (map_grayscale_to_phase [0, 100, 300, 500, 700, 900]
          [1/4, 1, 5/8, 1/8, 3/16, 1/2] 1).1 :=
  ⟨validSweep_example,
    C7_roundtrip_on_calibration_curve _ _ 1 1 3 5 validSweep_example⟩

end SantecSLM
